import Mathlib

/-!
# A shallow embedding of the Python-like interpreter (`src/main.c`)

C strings are modelled as `List Char` (the bytes before the terminating NUL).
The in-place writes of NUL bytes that the C code uses to cut a buffer into
pieces become `List.take` / `List.drop` at the corresponding offsets.

The heap is abstracted: an `Element` is the tree of values reachable from the
C `Element` struct, and the variable table is the list of `Variable`s starting
at `var_head`.  Diagnostics written to stdout are not part of the state; only
the text produced by `print` is modelled.

Results are wrapped in `Option`: `none` stands for an execution that does not
return, which here is the one read past the heap in `parse_operand`.  The
mutual recursion of the evaluator is tied with a recursion budget;
`evaluate_expression_unfold` and `parse_operand_unfold` show that the budget
is never used up: both functions satisfy the recursive equations of the source.

Signed 64-bit arithmetic is modelled on `Int` with explicit two's-complement
wrap-around.  Floating-point operations and the libc conversions for doubles
are taken as a parameter (`FloatOps`).
-/

namespace PyInterp

/-! ## libc: character classes in the "C" locale -/

/-- C `isspace`: space, and the control characters 9 to 13. -/
def isspace (c : Char) : Bool :=
  c.toNat == 32 || (9 ≤ c.toNat && c.toNat ≤ 13)

/-- C `isdigit`. -/
def isdigit (c : Char) : Bool :=
  48 ≤ c.toNat && c.toNat ≤ 57

/-- C `isalpha` in the "C" locale: the 52 ASCII letters. -/
def isalpha (c : Char) : Bool :=
  (65 ≤ c.toNat && c.toNat ≤ 90) || (97 ≤ c.toNat && c.toNat ≤ 122)

/-- C `isalnum`. -/
def isalnum (c : Char) : Bool :=
  isalpha c || isdigit c

/-! ## libc: string searching -/

/-- Offset of the first character of `s` satisfying `p`. -/
def find_first (p : Char → Bool) : List Char → Option Nat
  | [] => none
  | x :: t => if p x then some 0 else (find_first p t).map (· + 1)

/-- C `strchr(s, c)` for `c` other than NUL, as an offset into `s`. -/
def strchr (s : List Char) (c : Char) : Option Nat :=
  find_first (fun x => x == c) s

/-- C `strpbrk(s, accept)`, as an offset into `s`. -/
def strpbrk (s : List Char) (accept : List Char) : Option Nat :=
  find_first (fun x => accept.contains x) s

/-- The idiom `while (isspace(*p)) p++;`. -/
def skip_space (s : List Char) : List Char :=
  s.dropWhile isspace

/-- The idiom
    `end = s + strlen(s) - 1; while (end > s && isspace(*end)) end--; *(end + 1) = 0;`
    The guard `end > s` never removes the first character. -/
def chop_space : List Char → List Char
  | [] => []
  | c :: t => c :: t.rdropWhile isspace

/-! ## libc: integer conversions -/

/-- Value of the longest prefix of decimal digits, with accumulator. -/
def digits_value : List Char → Nat → Nat
  | [], acc => acc
  | c :: t, acc => if isdigit c then digits_value t (acc * 10 + (c.toNat - 48)) else acc

/-- C `strtoll(s, NULL, 10)`: leading white space, an optional sign, decimal
    digits; the result saturates at the bounds of `long long`. -/
def strtoll (s : List Char) : Int :=
  let s1 := s.dropWhile isspace
  let r : Int :=
    match s1 with
    | [] => 0
    | c :: t =>
      if c = '-' then - (digits_value t 0 : Int)
      else if c = '+' then (digits_value t 0 : Int)
      else (digits_value s1 0 : Int)
  max (-(2 ^ 63)) (min r (2 ^ 63 - 1))

/-- C `atoll`. -/
def atoll (s : List Char) : Int :=
  strtoll s

/-- Conversion to `int`: the low 32 bits, read as two's complement. -/
def wrap32 (x : Int) : Int :=
  (x + 2 ^ 31) % 2 ^ 32 - 2 ^ 31

/-- Conversion to `long long`: the low 64 bits, read as two's complement. -/
def wrap64 (x : Int) : Int :=
  (x + 2 ^ 63) % 2 ^ 64 - 2 ^ 63

/-- C `atoi`, which is `(int) strtol(s, NULL, 10)` with a 64-bit `long`. -/
def atoi (s : List Char) : Int :=
  wrap32 (strtoll s)

/-- Output of `printf("%lld", n)`. -/
def fmt_lld (n : Int) : List Char :=
  if n < 0 then '-' :: Nat.toDigits 10 n.natAbs else Nat.toDigits 10 n.toNat

/-! ## Doubles -/

/-- A C `double`, kept as its 64-bit pattern. -/
structure Dbl where
  bits : Nat
deriving DecidableEq, Repr

/-- The floating-point operations used by the interpreter: the four IEEE
    operations, the test `x == 0.0`, libc `atof` and `printf("%.5g", x)`. -/
structure FloatOps where
  add : Dbl → Dbl → Dbl
  sub : Dbl → Dbl → Dbl
  mul : Dbl → Dbl → Dbl
  div : Dbl → Dbl → Dbl
  is_zero : Dbl → Bool
  atof : List Char → Dbl
  fmt_g5 : Dbl → List Char

/-! ## Data model -/

/-- The tag of an element (`ElementType`). -/
inductive ElementType where
  | LONG_INT
  | DOUBLE
  | CHAR
  | STRING
  | LIST
  | NONE
deriving DecidableEq, Repr

/-- An `Element` together with everything it owns: the tag and the active
    member of the union; a list is the sequence of the `data` fields of its
    nodes. -/
inductive Element where
  | LONG_INT (long_val : Int)
  | DOUBLE (double_val : Dbl)
  | CHAR (char_val : Char)
  | STRING (string_val : List Char)
  | LIST (list_val : List Element)
  | NONE

namespace Element

mutual
/-- Decision procedure for equality of elements. -/
def decEq : (a b : Element) → Decidable (a = b)
  | LONG_INT x, LONG_INT y =>
    if h : x = y then isTrue (by rw [h]) else isFalse (by intro e; cases e; exact h rfl)
  | DOUBLE x, DOUBLE y =>
    if h : x = y then isTrue (by rw [h]) else isFalse (by intro e; cases e; exact h rfl)
  | CHAR x, CHAR y =>
    if h : x = y then isTrue (by rw [h]) else isFalse (by intro e; cases e; exact h rfl)
  | STRING x, STRING y =>
    if h : x = y then isTrue (by rw [h]) else isFalse (by intro e; cases e; exact h rfl)
  | LIST x, LIST y =>
    match decEqList x y with
    | isTrue h => isTrue (by rw [h])
    | isFalse h => isFalse (by intro e; cases e; exact h rfl)
  | NONE, NONE => isTrue rfl
  | LONG_INT _, DOUBLE _ | LONG_INT _, CHAR _ | LONG_INT _, STRING _ | LONG_INT _, LIST _
  | LONG_INT _, NONE | DOUBLE _, LONG_INT _ | DOUBLE _, CHAR _ | DOUBLE _, STRING _
  | DOUBLE _, LIST _ | DOUBLE _, NONE | CHAR _, LONG_INT _ | CHAR _, DOUBLE _
  | CHAR _, STRING _ | CHAR _, LIST _ | CHAR _, NONE | STRING _, LONG_INT _
  | STRING _, DOUBLE _ | STRING _, CHAR _ | STRING _, LIST _ | STRING _, NONE
  | LIST _, LONG_INT _ | LIST _, DOUBLE _ | LIST _, CHAR _ | LIST _, STRING _
  | LIST _, NONE | NONE, LONG_INT _ | NONE, DOUBLE _ | NONE, CHAR _ | NONE, STRING _
  | NONE, LIST _ => isFalse (by intro e; cases e)
/-- Decision procedure for equality of element sequences. -/
def decEqList : (a b : List Element) → Decidable (a = b)
  | [], [] => isTrue rfl
  | [], _ :: _ | _ :: _, [] => isFalse (by intro e; cases e)
  | x :: xs, y :: ys =>
    match decEq x y, decEqList xs ys with
    | isTrue h1, isTrue h2 => isTrue (by rw [h1, h2])
    | isFalse h1, _ => isFalse (by intro e; cases e; exact h1 rfl)
    | _, isFalse h2 => isFalse (by intro e; cases e; exact h2 rfl)
end

instance : DecidableEq Element := decEq

/-- The `type` field. -/
def type : Element → ElementType
  | LONG_INT _ => ElementType.LONG_INT
  | DOUBLE _ => ElementType.DOUBLE
  | CHAR _ => ElementType.CHAR
  | STRING _ => ElementType.STRING
  | LIST _ => ElementType.LIST
  | NONE => ElementType.NONE

end Element

open Element

/-- A node of the variable list: `name` and `value` (`next` is the tail of the
    list that holds it). -/
structure Variable where
  name : List Char
  value : Element
deriving DecidableEq

/-- `MAX_VAR_NAME`. -/
def MAX_VAR_NAME : Nat := 15

/-- `MAX_STRING_LEN`. -/
def MAX_STRING_LEN : Nat := 50

/-! ## Variable table (lines 147-180) -/

/-- `find_variable`: the first variable, from `var_head`, whose name compares
    equal with `strcmp`. -/
def find_variable : List Variable → List Char → Option Variable
  | [], _ => none
  | v :: t, name => if v.name = name then some v else find_variable t name

/-- The write `var->value = e` through the pointer returned by
    `find_variable vars name`. -/
def set_value : List Variable → List Char → Element → List Variable
  | [], _, _ => []
  | v :: t, name, e =>
    if v.name = name then { name := v.name, value := e } :: t
    else v :: set_value t name e

/-- `create_variable`: a new head node, the name cut by `strncpy` to
    `MAX_VAR_NAME` characters, the value `NONE`. -/
def create_variable (vars : List Variable) (name : List Char) : List Variable :=
  { name := name.take MAX_VAR_NAME, value := NONE } :: vars

/-- The loop `for (i = 1; i < strlen(name); i++)` of `is_valid_var_name`,
    started at index `i` with `n` iterations left. -/
def valid_tail_loop (name : List Char) : Nat → Nat → Bool
  | _, 0 => true
  | i, n + 1 =>
    match name.get? i with
    | none => true
    | some c =>
      if !isalnum c && c != '_' then false else valid_tail_loop name (i + 1) n

/-- `is_valid_var_name` (lines 173-180). -/
def is_valid_var_name (name : List Char) : Bool :=
  if name.length > MAX_VAR_NAME || name.length == 0 then false
  else if !(match name.get? 0 with | some c => isalpha c | none => false) then false
  else valid_tail_loop name 1 (name.length - 1)

/-! ## Copy and print (lines 268-299, 407-460) -/

mutual
/-- `copy_element`: a fresh element with the same tag and a copied payload. -/
def copy_element : Element → Element
  | LONG_INT v => LONG_INT v
  | DOUBLE v => DOUBLE v
  | CHAR v => CHAR v
  | STRING s => STRING s
  | LIST l => LIST (copy_nodes l)
  | NONE => NONE
/-- The node-by-node copy loop inside `copy_element`. -/
def copy_nodes : List Element → List Element
  | [] => []
  | x :: t => copy_element x :: copy_nodes t
end

mutual
/-- `print_element`: the characters written to stdout. -/
def print_element (fo : FloatOps) : Element → List Char
  | LONG_INT v => fmt_lld v
  | DOUBLE v => fo.fmt_g5 v
  | CHAR c => [Char.ofNat 39, c, Char.ofNat 39]
  | STRING s => [Char.ofNat 34] ++ s ++ [Char.ofNat 34]
  | LIST l => ['['] ++ print_nodes fo l ++ [']']
  | NONE => "None".toList
/-- The loop over the nodes of a list inside `print_element`. -/
def print_nodes (fo : FloatOps) : List Element → List Char
  | [] => []
  | x :: t =>
    print_element fo x ++ (if t.isEmpty then [] else ", ".toList) ++ print_nodes fo t
end

/-! ## Arithmetic (lines 303-350) -/

/-- `evaluate_arithmetic`. -/
def evaluate_arithmetic (fo : FloatOps) (op1 : Element) (op : Char) (op2 : Element) :
    Element :=
  match op1, op2 with
  | LONG_INT val1, LONG_INT val2 =>
    if op = '+' then LONG_INT (wrap64 (val1 + val2))
    else if op = '-' then LONG_INT (wrap64 (val1 - val2))
    else if op = '*' then LONG_INT (wrap64 (val1 * val2))
    else if op = '/' then
      if val2 = 0 then NONE else LONG_INT (wrap64 (Int.tdiv val1 val2))
    else NONE
  | DOUBLE val1, DOUBLE val2 =>
    if op = '+' then DOUBLE (fo.add val1 val2)
    else if op = '-' then DOUBLE (fo.sub val1 val2)
    else if op = '*' then DOUBLE (fo.mul val1 val2)
    else if op = '/' then
      if fo.is_zero val2 then NONE else DOUBLE (fo.div val1 val2)
    else NONE
  | _, _ => NONE

/-! ## Evaluator (lines 199-262, 355-405, 463-553)

`evaluate_expression`, `parse_operand` and `parse_list_literal` call each other.
Each body is written against the function it calls, and the knot is tied by
`evaluate_expression_fuel`, whose budget bounds the nesting depth of list
literals. -/

/-- The body of the `if` at lines 214-259 of `parse_list_literal`: the
    characters of the current token are copied, trimmed and, when something
    is left, evaluated; the result is linked at the tail whatever its tag. -/
def list_token (ev : List Char → Option Element) (tok : List Char)
    (acc : List Element) : Option (List Element) :=
  let trimmed_str := chop_space (skip_space tok)
  if trimmed_str.length > 0 then
    (ev trimmed_str).map (fun new_elem => acc ++ [new_elem])
  else some acc

/-- The `for` loop of `parse_list_literal` over the remaining characters, with
    `bracket_count`, the characters since `token_start` and the nodes linked
    so far.  The empty remainder is the iteration `i == len`. -/
def parse_list_loop (ev : List Char → Option Element) :
    List Char → Int → List Char → List Element → Option (List Element)
  | [], _, tok, acc => list_token ev tok acc
  | c :: rest, bracket_count, tok, acc =>
    let bc : Int :=
      if c = '[' then bracket_count + 1
      else if c = ']' then bracket_count - 1
      else bracket_count
    if c = ',' ∧ bc = 0 then
      (list_token ev tok acc).bind (fun acc1 => parse_list_loop ev rest bc [] acc1)
    else parse_list_loop ev rest bc (tok ++ [c]) acc

/-- `parse_list_literal` (lines 199-262), with `ev` the `evaluate_expression`
    it calls on each token. -/
def parse_list_literal (ev : List Char → Option Element) (list_str : List Char) :
    Option (List Element) :=
  parse_list_loop ev list_str 0 [] []

/-- The walk `for (i = 0; i < index && current != NULL; ++i) current = current->next;`
    followed by the test of `current`: the offset of the node reached, if any.
    A negative `index` runs the loop zero times. -/
def walk_nodes (l : List Element) (index : Int) : Option Nat :=
  if index.toNat < l.length then some index.toNat else none

/-- `parse_operand` (lines 463-553), with `ev` the `evaluate_expression` used
    for the tokens of a list literal. -/
def parse_operand_body (fo : FloatOps) (ev : List Char → Option Element)
    (vars : List Variable) (operand : List Char) : Option Element :=
  let operand_str := chop_space (skip_space operand)
  if operand_str.length = 0 then some NONE
  else if operand_str.head? = some '[' ∧ operand_str.getLast? = some ']' then
    (parse_list_literal ev (operand_str.tail.dropLast)).map LIST
  else
    match strchr operand_str '[' with
    | some b =>
      let index_str := operand_str.drop (b + 1)
      match strchr index_str ']' with
      | none => some NONE
      | some e =>
        let index := atoi (index_str.take e)
        match find_variable vars (operand_str.take b) with
        | some { name := _, value := LIST l } =>
          match walk_nodes l index with
          | some i =>
            match l.get? i with
            | some data => some (copy_element data)
            | none => some NONE
          | none => some NONE
        | _ => some NONE
    | none =>
      match find_variable vars operand_str with
      | some var => some (copy_element var.value)
      | none =>
        let c0 := operand_str.get? 0
        let c1 := operand_str.get? 1
        if (match c0 with | some c => isdigit c | none => false) ||
            (c0 == some '-' && (match c1 with | some c => isdigit c | none => false)) then
          if (strchr operand_str '.').isSome then some (DOUBLE (fo.atof operand_str))
          else some (LONG_INT (atoll operand_str))
        else if operand_str.length = 3 ∧ c0 = some (Char.ofNat 39) ∧
            operand_str.get? 2 = some (Char.ofNat 39) then
          match c1 with
          | some c => some (CHAR c)
          | none => some NONE
        else if c0 = some (Char.ofNat 34) ∧ operand_str.getLast? = some (Char.ofNat 34) then
          -- `strncpy(dst, operand_str + 1, strlen(operand_str) - 2)`: for a string of
          -- length 1 the count wraps to SIZE_MAX and the copy runs off the heap
          if operand_str.length < 2 then none
          else some (STRING ((operand_str.drop 1).take (operand_str.length - 2)))
        else some NONE

/-- `evaluate_expression` (lines 355-405), with `po` the `parse_operand` it
    calls. -/
def evaluate_expression_body (fo : FloatOps) (po : List Char → Option Element)
    (expr : List Char) : Option Element :=
  let expr_str := chop_space (skip_space expr)
  if expr_str.length = 0 then some NONE
  else
    match strpbrk expr_str ['+', '-', '*', '/'] with
    | some k =>
      match expr_str.get? k with
      | some op =>
        (po (expr_str.take k)).bind (fun op1_val =>
          (po (expr_str.drop (k + 1))).bind (fun op2_val =>
            if op1_val.type = ElementType.NONE ∨ op2_val.type = ElementType.NONE then
              some NONE
            else some (evaluate_arithmetic fo op1_val op op2_val)))
      | none => some NONE
    | none => po expr_str

/-- The evaluator with a recursion budget: `n` bounds the depth of calls of
    `evaluate_expression` that are active at once. -/
def evaluate_expression_fuel (fo : FloatOps) (vars : List Variable) :
    Nat → List Char → Option Element
  | 0, _ => none
  | n + 1, expr =>
    evaluate_expression_body fo
      (parse_operand_body fo (evaluate_expression_fuel fo vars n) vars) expr

/-- `evaluate_expression`: every nested call works on a strictly shorter
    string, so a budget above the length of the input is never used up. -/
def evaluate_expression (fo : FloatOps) (vars : List Variable) (expr : List Char) :
    Option Element :=
  evaluate_expression_fuel fo vars (expr.length + 1) expr

/-- `parse_operand`. -/
def parse_operand (fo : FloatOps) (vars : List Variable) (operand : List Char) :
    Option Element :=
  parse_operand_body fo (evaluate_expression_fuel fo vars operand.length) vars operand

/-! ## Command handlers (lines 66-127, 556-692) -/

/-- `handle_append` (lines 66-127): the variable table after the command. -/
def handle_append (fo : FloatOps) (vars : List Variable) (command : List Char) :
    Option (List Variable) :=
  match strchr command '(', strchr command ')' with
  | some arg_start, some arg_end =>
    if arg_end ≤ arg_start then some vars
    else
      let args := (command.take arg_end).drop (arg_start + 1)
      match strchr args ',' with
      | none => some vars
      | some comma =>
        let list_name_str := skip_space (args.take comma)
        let value_str := skip_space (args.drop (comma + 1))
        match find_variable vars list_name_str with
        | some { name := _, value := LIST l } =>
          match evaluate_expression fo vars value_str with
          | none => none
          | some value_to_append =>
            if value_to_append.type = ElementType.NONE then some vars
            else some (set_value vars list_name_str (LIST (l ++ [value_to_append])))
        | _ => some vars
  | _, _ => some vars

/-- `handle_print` (lines 556-575): the text written to stdout. -/
def handle_print (fo : FloatOps) (vars : List Variable) (command : List Char) :
    List Char :=
  match strchr command '(', strchr command ')' with
  | some arg_start, some arg_end =>
    if arg_end ≤ arg_start then "Error: Invalid print syntax.\n".toList
    else
      let arg := (command.take arg_end).drop (arg_start + 1)
      match find_variable vars arg with
      | some var => print_element fo var.value ++ ['\n']
      | none => "Error: Variable '".toList ++ arg ++ "' not found.\n".toList
  | _, _ => "Error: Invalid print syntax.\n".toList

/-- `handle_assignment` (lines 577-663): the variable table after the command. -/
def handle_assignment (fo : FloatOps) (vars : List Variable) (command : List Char) :
    Option (List Variable) :=
  match strchr command '=' with
  | none => some vars
  | some equals_pos =>
    let lhs := chop_space (skip_space (command.take equals_pos))
    let rhs := chop_space (skip_space (command.drop (equals_pos + 1)))
    match strchr lhs '[' with
    | some list_bracket =>
      let index_start := lhs.drop (list_bracket + 1)
      match strchr index_start ']' with
      | none => some vars
      | some index_end =>
        let list_name := (lhs.take list_bracket).take MAX_VAR_NAME
        match find_variable vars list_name with
        | some { name := _, value := LIST l } =>
          let index := atoi (index_start.take index_end)
          match evaluate_expression fo vars rhs with
          | none => none
          | some new_element =>
            if new_element.type = ElementType.NONE then some vars
            else
              match walk_nodes l index with
              | some i => some (set_value vars list_name (LIST (l.set i new_element)))
              | none => some vars
        | _ => some vars
    | none =>
      if !is_valid_var_name lhs then some vars
      else
        match evaluate_expression fo vars rhs with
        | none => none
        | some result =>
          if result.type = ElementType.NONE then some vars
          else
            match find_variable vars lhs with
            | none =>
              some (set_value (create_variable vars lhs) (lhs.take MAX_VAR_NAME)
                (copy_element result))
            | some _ => some (set_value vars lhs (copy_element result))

/-- `parse_command` (lines 665-692): the variable table after the command
    (`print` leaves it as it is). -/
def parse_command (fo : FloatOps) (vars : List Variable) (command0 : List Char) :
    Option (List Variable) :=
  let command := skip_space command0
  if "print(".toList.isPrefixOf command then some vars
  else if "append(".toList.isPrefixOf command then handle_append fo vars command
  else if (strchr command '=').isSome then handle_assignment fo vars command
  else some vars

/-- Lookup of a variable's value by name. -/
def value_of (vars : List Variable) (name : List Char) : Option Element :=
  (find_variable vars name).map (fun v => v.value)

/-- A float environment in which every double has the bit pattern of `+0.0`.
    It serves to run the definitions on programs without floating-point
    operands. -/
def zeroFloat : FloatOps where
  add := fun _ _ => { bits := 0 }
  sub := fun _ _ => { bits := 0 }
  mul := fun _ _ => { bits := 0 }
  div := fun _ _ => { bits := 0 }
  is_zero := fun d => d.bits == 0
  atof := fun _ => { bits := 0 }
  fmt_g5 := fun _ => ['0']

/-- The table after `a = [10, 20, 30]`, the running example of the spec. -/
def table_a : List Variable :=
  [{ name := "a".toList, value := LIST [LONG_INT 10, LONG_INT 20, LONG_INT 30] }]

/-- A list of `2^31 + 1` zeros: one element more than an `int` can index. -/
def long_list : List Element :=
  List.replicate (2 ^ 31 + 1) (LONG_INT 0)

/-- A table whose variable `a` holds `long_list`. -/
def long_table : List Variable :=
  [{ name := "a".toList, value := LIST long_list }]

/-- A table whose only variable has a name of `MAX_VAR_NAME` characters. -/
def table_name15 : List Variable :=
  [{ name := "abcdefghijklmno".toList, value := LIST [LONG_INT 1] }]

/-- The values of a C `long long`. -/
def in64 (x : Int) : Prop :=
  -(2 ^ 63) ≤ x ∧ x < 2 ^ 63

instance (x : Int) : Decidable (in64 x) := by
  unfold in64; infer_instance

/-! ## Notions used to state the properties -/

/-- Concatenation of `xs` with `sep` between consecutive members. -/
def join_with (sep : List Char) : List (List Char) → List Char
  | [] => []
  | [x] => x
  | x :: y :: t => x ++ sep ++ join_with sep (y :: t)

/-- Bracket depth after reading `s` from depth `d`; `none` when the depth
    falls below zero or a comma stands at depth zero. -/
def segment_depth : List Char → Int → Option Int
  | [], d => some d
  | c :: t, d =>
    let d1 : Int := if c = '[' then d + 1 else if c = ']' then d - 1 else d
    if d1 < 0 then none
    else if c = ',' ∧ d1 = 0 then none
    else segment_depth t d1

/-- A segment of a list literal: bracket-balanced, with no comma at depth
    zero. -/
def is_segment (s : List Char) : Bool :=
  segment_depth s 0 == some 0

/-- White space removed on both sides. -/
def trimmed (s : List Char) : List Char :=
  chop_space (skip_space s)

mutual
/-- The element holds no double, at any depth. -/
def no_float : Element → Bool
  | LONG_INT _ => true
  | DOUBLE _ => false
  | CHAR _ => true
  | STRING _ => true
  | LIST l => no_float_nodes l
  | NONE => true
/-- No member of the sequence holds a double. -/
def no_float_nodes : List Element → Bool
  | [] => true
  | x :: t => no_float x && no_float_nodes t
end

mutual
/-- The canonical text of an element as the spec words it: an Integer as its
    decimal numeral, a Char `c` as `'c'`, a Text `s` as `"s"`, Empty as
    `None`, a List as `[`, the texts of its elements joined by `, `, `]`.
    Doubles are outside this form. -/
def canonical : Element → List Char
  | LONG_INT v => (toString v).toList
  | DOUBLE _ => []
  | CHAR c => [Char.ofNat 39] ++ [c] ++ [Char.ofNat 39]
  | STRING s => [Char.ofNat 34] ++ s ++ [Char.ofNat 34]
  | LIST l => ['['] ++ join_with [',', ' '] (canonical_each l) ++ [']']
  | NONE => ['N', 'o', 'n', 'e']
/-- The canonical texts of the members of a sequence. -/
def canonical_each : List Element → List (List Char)
  | [] => []
  | x :: t => canonical x :: canonical_each t
end

/-- `parse_string_literal` (lines 183-197), which no other function calls;
    `none` is the `NULL` it returns for a text that is no literal. -/
def parse_string_literal (str : List Char) : Option (List Char) :=
  if str.length < 2 ∨ str.get? 0 ≠ some (Char.ofNat 34) ∨
      str.getLast? ≠ some (Char.ofNat 34) then none
  else some (((str.drop 1).take (str.length - 2)).take MAX_STRING_LEN)

/-- The commands of a session run in order by `parse_command`. -/
def run_commands (fo : FloatOps) : List Variable → List (List Char) → Option (List Variable)
  | vars, [] => some vars
  | vars, command :: rest =>
    (parse_command fo vars command).bind (fun vars1 => run_commands fo vars1 rest)

/-- A table that some sequence of commands produces from the empty table. -/
def reachable (fo : FloatOps) (vars : List Variable) : Prop :=
  ∃ commands, run_commands fo [] commands = some vars

/-- The natural number that a string of decimal digits denotes. -/
def decimal_value (s : List Char) : Nat :=
  s.foldl (fun acc c => acc * 10 + (c.toNat - 48)) 0

/-- The invariant of the variable table: the names are pairwise distinct and
    each is a valid name. -/
def table_ok (vars : List Variable) : Prop :=
  (vars.map (fun v => v.name)).Nodup ∧ ∀ v ∈ vars, is_valid_var_name v.name = true

/-- The four characters that `evaluate_expression` takes for an operator. -/
def operator_chars : List Char :=
  ['+', '-', '*', '/']

mutual
/-- An element built only from non-negative 64-bit Integers and Lists. -/
def nat_lists : Element → Bool
  | LONG_INT v => decide (0 ≤ v) && decide (v < 2 ^ 63)
  | DOUBLE _ => false
  | CHAR _ => false
  | STRING _ => false
  | LIST l => nat_lists_nodes l
  | NONE => false
/-- Every member of the sequence is built only from non-negative Integers
    and Lists. -/
def nat_lists_nodes : List Element → Bool
  | [] => true
  | x :: t => nat_lists x && nat_lists_nodes t
end

/-! # Theorems -/

/-! ## Name validity -/

theorem valid_tail_loop_iff (name : List Char) :
    ∀ n i, valid_tail_loop name i n = true ↔
      ∀ d ∈ (name.drop i).take n, (isalnum d = true ∨ d = '_') := by
  intro n
  induction n with
  | zero => intro i; simp [valid_tail_loop]
  | succ n ih =>
    intro i
    unfold valid_tail_loop
    cases h : name.get? i with
    | none =>
      have hle : name.length ≤ i := List.get?_eq_none.mp h
      simp [List.drop_eq_nil_of_le hle]
    | some c =>
      obtain ⟨hlt, hc⟩ := List.get?_eq_some.mp h
      have hd : name.drop i = c :: name.drop (i + 1) := by
        rw [← hc]; exact (List.drop_eq_getElem_cons hlt)
      simp only [hd, List.take_succ_cons, List.mem_cons, forall_eq_or_imp]
      rw [← ih (i + 1)]
      by_cases hok : isalnum c = true ∨ c = '_'
      · rcases hok with h1 | h1 <;> simp [h1]
      · push_neg at hok
        simp [hok.1, hok.2]

theorem valid_name_iff (name : List Char) :
    is_valid_var_name name = true ↔
      (1 ≤ name.length ∧ name.length ≤ 15 ∧
        ∃ c rest, name = c :: rest ∧ isalpha c = true ∧
          ∀ d ∈ rest, (isalnum d = true ∨ d = '_')) := by
  cases name with
  | nil => simp [is_valid_var_name]
  | cons c rest =>
    have hv := valid_tail_loop_iff (c :: rest) rest.length 1
    simp only [List.drop_succ_cons, List.drop_zero, List.take_length] at hv
    have key : is_valid_var_name (c :: rest) = true ↔
        (rest.length + 1 ≤ 15 ∧ isalpha c = true ∧
          ∀ d ∈ rest, (isalnum d = true ∨ d = '_')) := by
      simp [is_valid_var_name, MAX_VAR_NAME, hv]
    rw [key]
    constructor
    · rintro ⟨h1, h2, h3⟩
      exact ⟨by simp, h1, c, rest, rfl, h2, h3⟩
    · rintro ⟨_, h1, c1, rest1, heq, h2, h3⟩
      cases heq
      exact ⟨h1, h2, h3⟩

/-- C1: `is_valid_var_name` accepts exactly the names of 1 to 15 characters
    whose first character is alphabetic and whose other characters are
    alphanumeric or an underscore; `_ok`, `1bad`, the empty name and names of
    16 or more characters are rejected, `a_2` is accepted. -/
theorem is_valid_var_name_spec (name : List Char) :
    (is_valid_var_name name = true ↔
      (1 ≤ name.length ∧ name.length ≤ 15 ∧
        ∃ c rest, name = c :: rest ∧ isalpha c = true ∧
          ∀ d ∈ rest, (isalnum d = true ∨ d = '_'))) ∧
    is_valid_var_name "_ok".toList = false ∧
    is_valid_var_name "1bad".toList = false ∧
    is_valid_var_name [] = false ∧
    (16 ≤ name.length → is_valid_var_name name = false) ∧
    is_valid_var_name "a_2".toList = true := by
  refine ⟨valid_name_iff name, by decide, by decide, by decide, ?_, by decide⟩
  intro h
  unfold is_valid_var_name
  have : name.length > MAX_VAR_NAME := by simp only [MAX_VAR_NAME]; omega
  simp [this]

/-! ## Integer arithmetic -/

theorem wrap64_of_in64 {x : Int} (h : in64 x) : wrap64 x = x := by
  unfold in64 at h
  unfold wrap64
  omega

/-- C5, counterexample: `LLONG_MAX + 1` is not the mathematical sum. -/
theorem int_add_not_exact :
    in64 (2 ^ 63 - 1) ∧ in64 1 ∧
    evaluate_arithmetic zeroFloat (LONG_INT (2 ^ 63 - 1)) '+' (LONG_INT 1)
      ≠ LONG_INT ((2 ^ 63 - 1) + 1) := by
  decide

/-- C5, amended: `+`, `-` and `*` on integers return the mathematical sum,
    difference and product whenever that result is itself a 64-bit signed
    integer. -/
theorem evaluate_arithmetic_int_exact (fo : FloatOps) (a b : Int) :
    (in64 (a + b) →
      evaluate_arithmetic fo (LONG_INT a) '+' (LONG_INT b) = LONG_INT (a + b)) ∧
    (in64 (a - b) →
      evaluate_arithmetic fo (LONG_INT a) '-' (LONG_INT b) = LONG_INT (a - b)) ∧
    (in64 (a * b) →
      evaluate_arithmetic fo (LONG_INT a) '*' (LONG_INT b) = LONG_INT (a * b)) := by
  refine ⟨?_, ?_, ?_⟩ <;> intro h <;> simp [evaluate_arithmetic, wrap64_of_in64 h]

/-- C5, witness: 3 and -4. -/
theorem evaluate_arithmetic_int_exact_witness :
    in64 3 ∧ in64 (-4) ∧
    evaluate_arithmetic zeroFloat (LONG_INT 3) '+' (LONG_INT (-4)) = LONG_INT (-1) ∧
    evaluate_arithmetic zeroFloat (LONG_INT 3) '-' (LONG_INT (-4)) = LONG_INT 7 ∧
    evaluate_arithmetic zeroFloat (LONG_INT 3) '*' (LONG_INT (-4)) = LONG_INT (-12) :=
  have h := evaluate_arithmetic_int_exact zeroFloat 3 (-4)
  ⟨by decide, by decide, h.1 (by decide), h.2.1 (by decide), h.2.2 (by decide)⟩

theorem dropWhile_append_of_all {p : Char → Bool} :
    ∀ (a b : List Char), (∀ x ∈ a, p x = true) → (a ++ b).dropWhile p = b.dropWhile p
  | [], _, _ => rfl
  | x :: a, b, h => by
    have hx : p x = true := h x (List.mem_cons_self _ _)
    simp only [List.cons_append, List.dropWhile_cons, hx, if_true]
    exact dropWhile_append_of_all a b (fun y hy => h y (List.mem_cons_of_mem _ hy))

theorem dropWhile_head_false {p : Char → Bool} :
    ∀ (s : List Char) (c : Char) (t : List Char), s.dropWhile p = c :: t → p c = false
  | [], _, _, h => by simp at h
  | x :: s, c, t, h => by
    by_cases hx : p x = true
    · simp only [List.dropWhile_cons, hx, if_true] at h
      exact dropWhile_head_false s c t h
    · simp only [List.dropWhile_cons, hx] at h
      simp only [Bool.false_eq_true, if_false, List.cons.injEq] at h
      rw [← h.1]; simpa using hx

theorem rdropWhile_append_of_all {p : Char → Bool} (a b : List Char)
    (h : ∀ x ∈ b, p x = true) : (a ++ b).rdropWhile p = a.rdropWhile p := by
  unfold List.rdropWhile
  rw [List.reverse_append, dropWhile_append_of_all]
  intro x hx
  exact h x (List.mem_reverse.mp hx)

theorem dropWhile_subset {p : Char → Bool} (s : List Char) :
    ∀ x ∈ s.dropWhile p, x ∈ s :=
  fun _ hx => (List.dropWhile_sublist p).subset hx

theorem rdropWhile_subset {p : Char → Bool} (s : List Char) :
    ∀ x ∈ s.rdropWhile p, x ∈ s := by
  intro x hx
  unfold List.rdropWhile at hx
  have := dropWhile_subset (p := p) s.reverse x (List.mem_reverse.mp hx)
  exact List.mem_reverse.mp this

theorem chop_space_subset (s : List Char) : ∀ x ∈ chop_space s, x ∈ s := by
  cases s with
  | nil => simp [chop_space]
  | cons c t =>
    intro x hx
    simp only [chop_space, List.mem_cons] at hx ⊢
    rcases hx with h | h
    · exact Or.inl h
    · exact Or.inr (rdropWhile_subset t x h)

theorem trim_subset (s : List Char) : ∀ x ∈ chop_space (skip_space s), x ∈ s :=
  fun x hx => dropWhile_subset s x (chop_space_subset _ x hx)

theorem rdropWhile_length_le {p : Char → Bool} (s : List Char) :
    (s.rdropWhile p).length ≤ s.length := by
  unfold List.rdropWhile
  rw [List.length_reverse]
  exact (List.dropWhile_sublist p).length_le.trans (by simp)

theorem chop_space_length_le (s : List Char) : (chop_space s).length ≤ s.length := by
  cases s with
  | nil => simp [chop_space]
  | cons c t =>
    simp only [chop_space, List.length_cons]
    exact Nat.succ_le_succ (rdropWhile_length_le t)

theorem trim_length_le (s : List Char) : (chop_space (skip_space s)).length ≤ s.length :=
  (chop_space_length_le _).trans (List.dropWhile_sublist _).length_le

/-- Trimming is idempotent. -/
theorem trim_idem (s : List Char) :
    chop_space (skip_space (chop_space (skip_space s))) = chop_space (skip_space s) := by
  cases h : skip_space s with
  | nil => simp [chop_space, skip_space]
  | cons c t =>
    have hc : isspace c = false := dropWhile_head_false s c t h
    simp only [chop_space, skip_space, List.dropWhile_cons, hc, Bool.false_eq_true, if_false]
    rw [List.rdropWhile_idempotent]

/-- A string that neither starts nor ends with white space is what trimming
    leaves of it after padding with white space on both sides. -/
theorem trim_pad (ws1 ws2 : List Char) (c : Char) (t : List Char)
    (h1 : ∀ x ∈ ws1, isspace x = true) (h2 : ∀ x ∈ ws2, isspace x = true)
    (hc : isspace c = false) (hl : ∀ d, (c :: t).getLast? = some d → isspace d = false) :
    chop_space (skip_space (ws1 ++ (c :: t) ++ ws2)) = c :: t := by
  unfold skip_space
  rw [List.append_assoc, dropWhile_append_of_all ws1 _ h1]
  simp only [List.cons_append, List.dropWhile_cons, hc, Bool.false_eq_true, if_false, chop_space]
  rw [rdropWhile_append_of_all t ws2 h2]
  congr 1
  rw [List.rdropWhile_eq_self_iff]
  intro hne
  have : (c :: t).getLast? = some (t.getLast hne) := by
    rw [List.getLast?_eq_getLast _ (List.cons_ne_nil _ _), List.getLast_cons hne]
  simpa using hl _ this

theorem find_first_append {p : Char → Bool} :
    ∀ (a : List Char) (c : Char) (b : List Char), (∀ x ∈ a, p x = false) → p c = true →
      find_first p (a ++ c :: b) = some a.length
  | [], c, b, _, hc => by simp [find_first, hc]
  | x :: a, c, b, h, hc => by
    have hx : p x = false := h x (List.mem_cons_self _ _)
    have ih := find_first_append a c b (fun y hy => h y (List.mem_cons_of_mem _ hy)) hc
    show (if p x = true then some 0 else (find_first p (a ++ c :: b)).map (· + 1)) = _
    rw [hx, ih]
    rfl

theorem find_first_none {p : Char → Bool} :
    ∀ (s : List Char), (∀ x ∈ s, p x = false) → find_first p s = none
  | [], _ => rfl
  | x :: s, h => by
    have hx : p x = false := h x (List.mem_cons_self _ _)
    have ih := find_first_none s (fun y hy => h y (List.mem_cons_of_mem _ hy))
    show (if p x = true then some 0 else (find_first p s).map (· + 1)) = _
    rw [hx, ih]
    rfl

theorem strchr_append (a : List Char) (c : Char) (b : List Char) (h : c ∉ a) :
    strchr (a ++ c :: b) c = some a.length := by
  unfold strchr
  apply find_first_append
  · intro x hx
    simp only [beq_eq_false_iff_ne, ne_eq]
    rintro rfl
    exact h hx
  · simp

theorem strchr_none (s : List Char) (c : Char) (h : c ∉ s) : strchr s c = none := by
  unfold strchr
  apply find_first_none
  intro x hx
  simp only [beq_eq_false_iff_ne, ne_eq]
  rintro rfl
  exact h hx

/-! ## Copies -/

mutual
theorem copy_element_eq : ∀ e : Element, copy_element e = e
  | LONG_INT _ => by simp [copy_element]
  | DOUBLE _ => by simp [copy_element]
  | CHAR _ => by simp [copy_element]
  | STRING _ => by simp [copy_element]
  | LIST l => by simp [copy_element, copy_nodes_eq l]
  | NONE => by simp [copy_element]
theorem copy_nodes_eq : ∀ l : List Element, copy_nodes l = l
  | [] => by simp [copy_nodes]
  | x :: t => by simp [copy_nodes, copy_element_eq x, copy_nodes_eq t]
end

/-! ## Variable table -/

theorem find_set_value_same (name : List Char) (e : Element) :
    ∀ (vars : List Variable) (v : Variable), find_variable vars name = some v →
      find_variable (set_value vars name e) name = some { name := name, value := e }
  | [], _, h => by simp [find_variable] at h
  | w :: t, v, h => by
    by_cases hw : w.name = name
    · simp [set_value, find_variable, hw]
    · simp only [find_variable, hw, if_false] at h
      simp only [set_value, find_variable, hw, if_false]
      exact find_set_value_same name e t v h

theorem find_set_value_other (name other : List Char) (e : Element) (hne : other ≠ name) :
    ∀ (vars : List Variable),
      find_variable (set_value vars name e) other = find_variable vars other
  | [] => by simp [set_value]
  | w :: t => by
    by_cases hw : w.name = name
    · have : w.name ≠ other := fun h => hne (h.symm.trans hw)
      simp [set_value, find_variable, hw, this, hne.symm]
    · simp only [set_value, hw, if_false, find_variable]
      rw [find_set_value_other name other e hne t]

theorem find_variable_name (name : List Char) :
    ∀ (vars : List Variable) (v : Variable), find_variable vars name = some v → v.name = name
  | [], _, h => by simp [find_variable] at h
  | w :: t, v, h => by
    by_cases hw : w.name = name
    · simp only [find_variable, hw, if_true, Option.some.injEq] at h
      rw [← h]; exact hw
    · simp only [find_variable, hw, if_false] at h
      exact find_variable_name name t v h

/-! ## The recursion budget of the evaluator is never exhausted -/

theorem list_token_congr (ev1 ev2 : List Char → Option Element) (tok : List Char)
    (acc : List Element) (h : ∀ u, u.length ≤ tok.length → ev1 u = ev2 u) :
    list_token ev1 tok acc = list_token ev2 tok acc := by
  unfold list_token
  simp only [h _ (trim_length_le tok)]

theorem parse_list_loop_congr (ev1 ev2 : List Char → Option Element) :
    ∀ (rest : List Char) (bc : Int) (tok : List Char) (acc : List Element),
      (∀ u, u.length ≤ tok.length + rest.length → ev1 u = ev2 u) →
      parse_list_loop ev1 rest bc tok acc = parse_list_loop ev2 rest bc tok acc
  | [], bc, tok, acc, h => by
    simp only [parse_list_loop]
    exact list_token_congr ev1 ev2 tok acc (fun u hu => h u (by simpa using hu))
  | c :: rest, bc, tok, acc, h => by
    simp only [parse_list_loop]
    have htok : list_token ev1 tok acc = list_token ev2 tok acc :=
      list_token_congr ev1 ev2 tok acc
        (fun u hu => h u (by simp only [List.length_cons]; omega))
    have h1 : ∀ bc1 acc1, parse_list_loop ev1 rest bc1 [] acc1
        = parse_list_loop ev2 rest bc1 [] acc1 :=
      fun bc1 acc1 => parse_list_loop_congr ev1 ev2 rest bc1 [] acc1
        (fun u hu => h u (by simp only [List.length_cons, List.length_nil] at hu ⊢; omega))
    have h2 : ∀ bc1, parse_list_loop ev1 rest bc1 (tok ++ [c]) acc
        = parse_list_loop ev2 rest bc1 (tok ++ [c]) acc :=
      fun bc1 => parse_list_loop_congr ev1 ev2 rest bc1 (tok ++ [c]) acc
        (fun u hu => h u (by
          simp only [List.length_cons, List.length_append, List.length_nil] at hu ⊢; omega))
    rw [htok]
    simp only [h1, h2]

theorem parse_operand_body_congr (fo : FloatOps) (ev1 ev2 : List Char → Option Element)
    (vars : List Variable) (s : List Char)
    (h : ∀ u, u.length < s.length → ev1 u = ev2 u) :
    parse_operand_body fo ev1 vars s = parse_operand_body fo ev2 vars s := by
  unfold parse_operand_body
  have hlen := trim_length_le s
  by_cases h0 : (chop_space (skip_space s)).length = 0
  · simp only [h0, if_true]
  · have hl : parse_list_literal ev1 (chop_space (skip_space s)).tail.dropLast
        = parse_list_literal ev2 (chop_space (skip_space s)).tail.dropLast := by
      unfold parse_list_literal
      apply parse_list_loop_congr
      intro u hu
      apply h
      simp only [List.length_nil, List.length_dropLast, List.length_tail, Nat.zero_add] at hu
      omega
    simp only [hl]

theorem evaluate_expression_body_congr (fo : FloatOps)
    (po1 po2 : List Char → Option Element) (s : List Char)
    (h : ∀ t, t.length ≤ s.length → po1 t = po2 t) :
    evaluate_expression_body fo po1 s = evaluate_expression_body fo po2 s := by
  unfold evaluate_expression_body
  have hlen := trim_length_le s
  have h1 : ∀ k, po1 ((chop_space (skip_space s)).take k)
      = po2 ((chop_space (skip_space s)).take k) :=
    fun k => h _ ((List.length_take_le' _ _).trans hlen)
  have h2 : ∀ k, po1 ((chop_space (skip_space s)).drop k)
      = po2 ((chop_space (skip_space s)).drop k) :=
    fun k => h _ (by rw [List.length_drop]; omega)
  have h3 : po1 (chop_space (skip_space s)) = po2 (chop_space (skip_space s)) := h _ hlen
  simp only [h1, h2, h3]

theorem evaluate_expression_fuel_mono (fo : FloatOps) (vars : List Variable) :
    ∀ (n : Nat) (s : List Char), s.length < n → ∀ m, n ≤ m →
      evaluate_expression_fuel fo vars m s = evaluate_expression_fuel fo vars n s
  | 0, _, h, _, _ => by omega
  | n + 1, s, hs, m, hm => by
    obtain ⟨m1, rfl⟩ : ∃ m1, m = m1 + 1 := ⟨m - 1, by omega⟩
    simp only [evaluate_expression_fuel]
    apply evaluate_expression_body_congr
    intro t ht
    apply parse_operand_body_congr
    intro u hu
    exact evaluate_expression_fuel_mono fo vars n u (by omega) m1 (by omega)

/-- With any budget above the length of the input the evaluator gives the
    result of `evaluate_expression`. -/
theorem evaluate_expression_fuel_eq (fo : FloatOps) (vars : List Variable)
    (s : List Char) (n : Nat) (h : s.length < n) :
    evaluate_expression_fuel fo vars n s = evaluate_expression fo vars s :=
  evaluate_expression_fuel_mono fo vars (s.length + 1) s (by omega) n (by omega)

/-- `evaluate_expression` unfolds to its body over `parse_operand`. -/
theorem evaluate_expression_unfold (fo : FloatOps) (vars : List Variable) (s : List Char) :
    evaluate_expression fo vars s
      = evaluate_expression_body fo (parse_operand fo vars) s := by
  unfold evaluate_expression
  simp only [evaluate_expression_fuel]
  apply evaluate_expression_body_congr
  intro t ht
  unfold parse_operand
  apply parse_operand_body_congr
  intro u hu
  rw [evaluate_expression_fuel_eq fo vars u _ (by omega),
    evaluate_expression_fuel_eq fo vars u _ hu]

/-- `parse_operand` unfolds to its body over `evaluate_expression`. -/
theorem parse_operand_unfold (fo : FloatOps) (vars : List Variable) (s : List Char) :
    parse_operand fo vars s
      = parse_operand_body fo (evaluate_expression fo vars) vars s := by
  unfold parse_operand
  apply parse_operand_body_congr
  intro u hu
  exact evaluate_expression_fuel_eq fo vars u _ hu

/-- The trimming at the start of `evaluate_expression` makes trimming by the
    caller redundant. -/
theorem evaluate_expression_trim (fo : FloatOps) (vars : List Variable) (s : List Char) :
    evaluate_expression fo vars (chop_space (skip_space s))
      = evaluate_expression fo vars s := by
  rw [evaluate_expression_unfold, evaluate_expression_unfold]
  unfold evaluate_expression_body
  simp only [trim_idem]

theorem evaluate_expression_skip (fo : FloatOps) (vars : List Variable) (s : List Char) :
    evaluate_expression fo vars (skip_space s) = evaluate_expression fo vars s := by
  rw [evaluate_expression_unfold, evaluate_expression_unfold]
  unfold evaluate_expression_body
  have : skip_space (skip_space s) = skip_space s := by
    unfold skip_space
    exact List.dropWhile_idempotent _ _
  simp only [this]

/-! ## Identifier characters -/

theorem ident_char_cases {c : Char} (h : isalnum c = true ∨ c = '_') :
    (48 ≤ c.toNat ∧ c.toNat ≤ 57) ∨ (65 ≤ c.toNat ∧ c.toNat ≤ 90) ∨
      (97 ≤ c.toNat ∧ c.toNat ≤ 122) ∨ c.toNat = 95 := by
  rcases h with h | rfl
  · simp only [isalnum, isalpha, isdigit, Bool.or_eq_true, Bool.and_eq_true,
      decide_eq_true_eq] at h
    omega
  · right; right; right; decide

theorem ident_char_not_space {c : Char} (h : isalnum c = true ∨ c = '_') :
    isspace c = false := by
  have := ident_char_cases h
  simp only [isspace, Bool.or_eq_false_iff, Bool.and_eq_false_iff, beq_eq_false_iff_ne,
    decide_eq_false_iff_not]
  omega

theorem ident_char_ne {c : Char} (h : isalnum c = true ∨ c = '_') (d : Char)
    (hd : d.toNat < 48 ∨ (57 < d.toNat ∧ d.toNat < 65) ∨ (90 < d.toNat ∧ d.toNat < 95) ∨
      d.toNat = 96 ∨ 122 < d.toNat) : c ≠ d := by
  have := ident_char_cases h
  rintro rfl
  omega

theorem valid_name_chars {name : List Char} (h : is_valid_var_name name = true) :
    ∀ d ∈ name, (isalnum d = true ∨ d = '_') := by
  obtain ⟨_, _, c, rest, rfl, hc, hr⟩ := (valid_name_iff name).mp h
  intro d hd
  rcases List.mem_cons.mp hd with rfl | hd
  · left; simp [isalnum, hc]
  · exact hr d hd

theorem valid_name_ne_nil {name : List Char} (h : is_valid_var_name name = true) :
    name ≠ [] := by
  obtain ⟨_, _, c, rest, rfl, _, _⟩ := (valid_name_iff name).mp h
  simp

theorem valid_name_length {name : List Char} (h : is_valid_var_name name = true) :
    name.length ≤ 15 :=
  ((valid_name_iff name).mp h).2.1

theorem valid_name_not_mem {name : List Char} (h : is_valid_var_name name = true) (d : Char)
    (hd : d.toNat < 48 ∨ (57 < d.toNat ∧ d.toNat < 65) ∨ (90 < d.toNat ∧ d.toNat < 95) ∨
      d.toNat = 96 ∨ 122 < d.toNat) : d ∉ name :=
  fun hm => ident_char_ne (valid_name_chars h d hm) d hd rfl

/-- A valid name survives trimming, whatever white space surrounds it. -/
theorem valid_name_trim_pad {name : List Char} (h : is_valid_var_name name = true)
    (ws1 ws2 : List Char) (h1 : ∀ x ∈ ws1, isspace x = true)
    (h2 : ∀ x ∈ ws2, isspace x = true) :
    chop_space (skip_space (ws1 ++ name ++ ws2)) = name := by
  have hch := valid_name_chars h
  cases name with
  | nil => exact absurd rfl (valid_name_ne_nil h)
  | cons c t =>
    apply trim_pad ws1 ws2 c t h1 h2
    · exact ident_char_not_space (hch c (List.mem_cons_self _ _))
    · intro d hd
      exact ident_char_not_space (hch d (List.mem_of_mem_getLast? hd))

theorem valid_name_trim {name : List Char} (h : is_valid_var_name name = true) :
    chop_space (skip_space name) = name := by
  have := valid_name_trim_pad h [] [] (by simp) (by simp)
  simpa using this

theorem valid_name_skip {name : List Char} (h : is_valid_var_name name = true) :
    skip_space name = name := by
  have hch := valid_name_chars h
  cases name with
  | nil => rfl
  | cons c t =>
    have := ident_char_not_space (hch c (List.mem_cons_self _ _))
    simp [skip_space, this]

/-! ## Plain assignment -/

theorem split_at_char (a : List Char) (c : Char) (b : List Char) :
    (a ++ c :: b).take a.length = a ∧ (a ++ c :: b).drop (a.length + 1) = b := by
  constructor
  · simp
  · rw [← List.drop_drop]
    simp

/-- What `handle_assignment` does with `lhs=rhs` when `lhs` holds neither `=`
    nor `[`. -/
theorem handle_assignment_plain (fo : FloatOps) (vars : List Variable)
    (lhs rhs : List Char) (heq : '=' ∉ lhs) (hbr : '[' ∉ chop_space (skip_space lhs)) :
    handle_assignment fo vars (lhs ++ '=' :: rhs) =
      if is_valid_var_name (chop_space (skip_space lhs)) = false then some vars
      else
        match evaluate_expression fo vars rhs with
        | none => none
        | some result =>
          if result.type = ElementType.NONE then some vars
          else
            match find_variable vars (chop_space (skip_space lhs)) with
            | none =>
              some ({ name := (chop_space (skip_space lhs)).take MAX_VAR_NAME,
                      value := result } :: vars)
            | some _ => some (set_value vars (chop_space (skip_space lhs)) result) := by
  unfold handle_assignment
  rw [strchr_append lhs '=' rhs heq]
  simp only [(split_at_char lhs '=' rhs).1, (split_at_char lhs '=' rhs).2]
  rw [strchr_none _ '[' hbr]
  simp only [evaluate_expression_trim, copy_element_eq]
  by_cases hv : is_valid_var_name (chop_space (skip_space lhs)) = true
  · simp only [hv, Bool.not_true, Bool.false_eq_true, if_false]
    cases evaluate_expression fo vars rhs with
    | none => rfl
    | some result =>
      simp only
      by_cases hn : result.type = ElementType.NONE
      · simp [hn]
      · simp only [hn, if_false]
        cases find_variable vars (chop_space (skip_space lhs)) with
        | none => simp [create_variable, set_value]
        | some w => simp
  · simp only [Bool.not_eq_true] at hv
    simp [hv]

theorem type_none_iff (e : Element) : e.type = ElementType.NONE ↔ e = NONE := by
  cases e <;> simp [Element.type]

/-- C2: a plain assignment `lhs = rhs` whose left side is not a valid
    variable name, or whose right side evaluates to `NONE`, returns with the
    variable table it was given. -/
theorem handle_assignment_rejects (fo : FloatOps) (vars : List Variable)
    (lhs rhs : List Char) (heq : '=' ∉ lhs) (hbr : '[' ∉ lhs)
    (h : is_valid_var_name (chop_space (skip_space lhs)) = false ∨
      evaluate_expression fo vars rhs = some NONE) :
    handle_assignment fo vars (lhs ++ '=' :: rhs) = some vars := by
  rw [handle_assignment_plain fo vars lhs rhs heq (fun h => hbr (trim_subset lhs _ h))]
  by_cases hv : is_valid_var_name (chop_space (skip_space lhs)) = false
  · simp [hv]
  · rcases h with h | h
    · exact absurd h hv
    · simp [hv, h, Element.type]

/-- The effect of a plain assignment that succeeds. -/
theorem assignment_effect (fo : FloatOps) (vars : List Variable)
    (lhs rhs x : List Char) (v : Element) (heq : '=' ∉ lhs)
    (hx : chop_space (skip_space lhs) = x) (hvalid : is_valid_var_name x = true)
    (hev : evaluate_expression fo vars rhs = some v) (hv : v ≠ NONE) :
    ∃ vars1, handle_assignment fo vars (lhs ++ '=' :: rhs) = some vars1 ∧
      value_of vars1 x = some v ∧
      (∀ y, y ≠ x → find_variable vars1 y = find_variable vars y) ∧
      (find_variable vars x = none → vars1 = { name := x, value := v } :: vars) ∧
      (find_variable vars x ≠ none → vars1 = set_value vars x v) := by
  subst hx
  have hbr : '[' ∉ chop_space (skip_space lhs) :=
    valid_name_not_mem hvalid '[' (by decide)
  have hvt : v.type ≠ ElementType.NONE := fun h => hv ((type_none_iff v).mp h)
  have htake : (chop_space (skip_space lhs)).take MAX_VAR_NAME = chop_space (skip_space lhs) :=
    List.take_of_length_le (valid_name_length hvalid)
  rw [handle_assignment_plain fo vars lhs rhs heq hbr]
  simp only [hvalid, Bool.true_eq_false, if_false, hev, hvt, htake]
  cases hf : find_variable vars (chop_space (skip_space lhs)) with
  | none =>
    refine ⟨_, rfl, ?_, ?_, fun _ => rfl, fun h => absurd rfl h⟩
    · simp [value_of, find_variable]
    · intro y hy
      simp [find_variable, Ne.symm hy]
  | some w =>
    refine ⟨_, rfl, ?_, ?_, fun h => by simp at h, fun _ => rfl⟩
    · simp [value_of, find_set_value_same _ v vars w hf]
    · intro y hy
      exact find_set_value_other _ y v hy vars

/-- C3: a plain assignment `x = rhs` with a valid name `x` and a right side
    that evaluates to a value `v` other than `NONE` returns a table in which
    `x` holds `v` and every other name is looked up as before: `x` is a new
    head of the table when it was unknown, and is overwritten in place when it
    existed. -/
theorem handle_assignment_stores (fo : FloatOps) (vars : List Variable)
    (lhs rhs x : List Char) (v : Element) (heq : '=' ∉ lhs)
    (hx : chop_space (skip_space lhs) = x) (hvalid : is_valid_var_name x = true)
    (hev : evaluate_expression fo vars rhs = some v) (hv : v ≠ NONE) :
    ∃ vars1, handle_assignment fo vars (lhs ++ '=' :: rhs) = some vars1 ∧
      value_of vars1 x = some v ∧
      (∀ y, y ≠ x → find_variable vars1 y = find_variable vars y) ∧
      (find_variable vars x = none → vars1 = { name := x, value := v } :: vars) ∧
      (find_variable vars x ≠ none → vars1 = set_value vars x v) :=
  assignment_effect fo vars lhs rhs x v heq hx hvalid hev hv

/-- C2, witness: `1bad = 5` and `a = 5 / 0` on the table `a = [10, 20, 30]`. -/
theorem handle_assignment_rejects_witness :
    handle_assignment zeroFloat table_a ("1bad ".toList ++ '=' :: " 5".toList)
      = some table_a ∧
    handle_assignment zeroFloat table_a ("a ".toList ++ '=' :: " 5 / 0".toList)
      = some table_a :=
  ⟨handle_assignment_rejects zeroFloat table_a "1bad ".toList " 5".toList
      (by decide) (by decide) (Or.inl (by decide)),
   handle_assignment_rejects zeroFloat table_a "a ".toList " 5 / 0".toList
      (by decide) (by decide) (Or.inr (by decide))⟩

/-- C3, witness: `x = 2 + 3` on the table `a = [10, 20, 30]`. -/
theorem handle_assignment_stores_witness :
    ∃ vars1, handle_assignment zeroFloat table_a ("x ".toList ++ '=' :: " 2 + 3".toList)
        = some vars1 ∧
      value_of vars1 "x".toList = some (LONG_INT 5) ∧
      (∀ y, y ≠ "x".toList → find_variable vars1 y = find_variable table_a y) ∧
      (find_variable table_a "x".toList = none →
        vars1 = { name := "x".toList, value := LONG_INT 5 } :: table_a) ∧
      (find_variable table_a "x".toList ≠ none →
        vars1 = set_value table_a "x".toList (LONG_INT 5)) :=
  handle_assignment_stores zeroFloat table_a "x ".toList " 2 + 3".toList "x".toList
    (LONG_INT 5) (by decide) (by decide) (by decide) (by decide) (by decide)

/-! ## Variable references and `append` -/

theorem valid_name_strpbrk {name : List Char} (h : is_valid_var_name name = true) :
    strpbrk name ['+', '-', '*', '/'] = none := by
  unfold strpbrk
  apply find_first_none
  intro c hc
  have h1 := valid_name_not_mem h '+' (by decide)
  have h2 := valid_name_not_mem h '-' (by decide)
  have h3 := valid_name_not_mem h '*' (by decide)
  have h4 := valid_name_not_mem h '/' (by decide)
  have e1 : c ≠ '+' := fun e => h1 (e ▸ hc)
  have e2 : c ≠ '-' := fun e => h2 (e ▸ hc)
  have e3 : c ≠ '*' := fun e => h3 (e ▸ hc)
  have e4 : c ≠ '/' := fun e => h4 (e ▸ hc)
  have b1 : (c == '+') = false := by simp [e1]
  have b2 : (c == '-') = false := by simp [e2]
  have b3 : (c == '*') = false := by simp [e3]
  have b4 : (c == '/') = false := by simp [e4]
  simp [List.contains, List.elem, b1, b2, b3, b4]

/-- A valid name that is in the table resolves to (a copy of) its value. -/
theorem parse_operand_var (fo : FloatOps) (vars : List Variable) (x : List Char)
    (w : Variable) (h : is_valid_var_name x = true) (hf : find_variable vars x = some w) :
    parse_operand fo vars x = some w.value := by
  rw [parse_operand_unfold]
  unfold parse_operand_body
  have hne := valid_name_ne_nil h
  have hbr := valid_name_not_mem h '[' (by decide)
  have hlen : x.length ≠ 0 := fun e => hne (List.length_eq_zero.mp e)
  have hhead : x.head? ≠ some '[' := by
    intro e
    exact hbr (List.mem_of_mem_head? e)
  simp only [valid_name_trim h, hlen, if_false, hhead, false_and, strchr_none x '[' hbr, hf,
    copy_element_eq]

theorem evaluate_expression_var (fo : FloatOps) (vars : List Variable) (x : List Char)
    (w : Variable) (h : is_valid_var_name x = true) (hf : find_variable vars x = some w) :
    evaluate_expression fo vars x = some w.value := by
  rw [evaluate_expression_unfold]
  unfold evaluate_expression_body
  have hne := valid_name_ne_nil h
  have hlen : x.length ≠ 0 := fun e => hne (List.length_eq_zero.mp e)
  simp only [valid_name_trim h, hlen, if_false, valid_name_strpbrk h]
  exact parse_operand_var fo vars x w h hf

theorem evaluate_expression_space (fo : FloatOps) (vars : List Variable) (s : List Char) :
    evaluate_expression fo vars (' ' :: s) = evaluate_expression fo vars s := by
  rw [← evaluate_expression_skip fo vars (' ' :: s), ← evaluate_expression_skip fo vars s]
  rfl

theorem digitChar_digit (k : Nat) (h : k < 10) :
    isdigit (Nat.digitChar k) = true ∧ (Nat.digitChar k).toNat - 48 = k := by
  interval_cases k <;> decide

theorem digits_value_toDigitsCore :
    ∀ (f n : Nat) (ds : List Char), n < f →
      digits_value (Nat.toDigitsCore 10 f n ds) 0 = digits_value ds n
  | 0, _, _, h => by omega
  | f + 1, n, ds, h => by
    have hd := digitChar_digit (n % 10) (Nat.mod_lt _ (by decide))
    unfold Nat.toDigitsCore
    by_cases h0 : n / 10 = 0
    · simp only [h0, if_true, digits_value, hd.1, hd.2]
      congr 1
      omega
    · simp only [h0, if_false]
      rw [digits_value_toDigitsCore f (n / 10) _ (by omega)]
      simp only [digits_value, hd.1, if_true, hd.2]
      congr 1
      omega

theorem toDigitsCore_all_digits :
    ∀ (f n : Nat) (ds : List Char), (∀ c ∈ ds, isdigit c = true) →
      ∀ c ∈ Nat.toDigitsCore 10 f n ds, isdigit c = true
  | 0, _, _, h => by simpa [Nat.toDigitsCore] using h
  | f + 1, n, ds, h => by
    have hd := digitChar_digit (n % 10) (Nat.mod_lt _ (by decide))
    have hds : ∀ c ∈ Nat.digitChar (n % 10) :: ds, isdigit c = true := by
      intro c hc
      rcases List.mem_cons.mp hc with rfl | hc
      · exact hd.1
      · exact h c hc
    unfold Nat.toDigitsCore
    by_cases h0 : n / 10 = 0
    · simpa only [h0, if_true] using hds
    · simp only [h0, if_false]
      exact toDigitsCore_all_digits f (n / 10) _ hds

theorem toDigitsCore_ne_nil :
    ∀ (f n : Nat) (ds : List Char), (0 < f ∨ ds ≠ []) → Nat.toDigitsCore 10 f n ds ≠ []
  | 0, _, ds, h => by
    rcases h with h | h
    · omega
    · simpa [Nat.toDigitsCore] using h
  | f + 1, n, ds, _ => by
    unfold Nat.toDigitsCore
    by_cases h0 : n / 10 = 0
    · simp [h0]
    · simp only [h0, if_false]
      exact toDigitsCore_ne_nil f (n / 10) _ (Or.inr (by simp))

theorem toDigits_all_digits (n : Nat) : ∀ c ∈ Nat.toDigits 10 n, isdigit c = true :=
  toDigitsCore_all_digits (n + 1) n [] (by simp)

theorem digit_not_mem (n : Nat) (d : Char) (hd : isdigit d = false) :
    d ∉ Nat.toDigits 10 n := by
  intro h
  rw [toDigits_all_digits n d h] at hd
  exact absurd hd (by simp)

/-- The decimal numeral of `n` is read back by `atoi` when it fits an `int`. -/
theorem atoi_toDigits (n : Nat) (h : n < 2 ^ 31) : atoi (Nat.toDigits 10 n) = (n : Int) := by
  have hv : digits_value (Nat.toDigits 10 n) 0 = n := by
    unfold Nat.toDigits
    rw [digits_value_toDigitsCore (n + 1) n [] (by omega)]
    rfl
  have hall := toDigits_all_digits n
  have hne : Nat.toDigits 10 n ≠ [] := toDigitsCore_ne_nil (n + 1) n [] (Or.inl (by omega))
  unfold atoi strtoll
  cases hs : Nat.toDigits 10 n with
  | nil => exact absurd hs hne
  | cons c t =>
    rw [hs] at hv hall
    have hc : isdigit c = true := hall c (List.mem_cons_self _ _)
    have hc2 : 48 ≤ c.toNat ∧ c.toNat ≤ 57 := by
      simpa [isdigit] using hc
    have hsp : isspace c = false := by
      simp only [isspace, Bool.or_eq_false_iff, Bool.and_eq_false_iff, beq_eq_false_iff_ne,
        decide_eq_false_iff_not]
      omega
    have hm : c ≠ '-' := by rintro rfl; revert hc2; decide
    have hp : c ≠ '+' := by rintro rfl; revert hc2; decide
    simp only [List.dropWhile_cons, hsp, Bool.false_eq_true, if_false, hm, hp, hv]
    unfold wrap32
    omega

/-! ## Indexed assignment and indexed read -/

/-- What `handle_assignment` does with `name[idx] = rhs` for a valid name and
    an index text without `]` and `=`. -/
theorem handle_assignment_indexed (fo : FloatOps) (vars : List Variable)
    (name idx rhs : List Char) (h : is_valid_var_name name = true)
    (h1 : ']' ∉ idx) (h2 : '=' ∉ idx) :
    handle_assignment fo vars (name ++ '[' :: idx ++ "] = ".toList ++ rhs) =
      match find_variable vars name with
      | some { name := _, value := LIST l } =>
        match evaluate_expression fo vars rhs with
        | none => none
        | some new_element =>
          if new_element.type = ElementType.NONE then some vars
          else
            match walk_nodes l (atoi idx) with
            | some i => some (set_value vars name (LIST (l.set i new_element)))
            | none => some vars
      | _ => some vars := by
  have hcmd : name ++ '[' :: idx ++ "] = ".toList ++ rhs
      = (name ++ '[' :: idx ++ [']', ' ']) ++ '=' :: (' ' :: rhs) := by
    simp
  have heq : '=' ∉ name ++ '[' :: idx ++ [']', ' '] := by
    simp only [List.mem_append, List.mem_cons, not_or]
    exact ⟨⟨valid_name_not_mem h '=' (by decide), by decide, h2⟩, by decide, by decide,
      List.not_mem_nil _⟩
  have hch := valid_name_chars h
  have htrim : chop_space (skip_space (name ++ '[' :: idx ++ [']', ' ']))
      = name ++ '[' :: idx ++ [']'] := by
    cases hn : name with
    | nil => exact absurd hn (valid_name_ne_nil h)
    | cons c t =>
      have := trim_pad [] [' '] c (t ++ '[' :: idx ++ [']']) (by simp) (by decide)
        (ident_char_not_space (hch c (by rw [hn]; exact List.mem_cons_self _ _)))
        (by
          intro d hd
          have : d = ']' := by
            have hl : (c :: (t ++ '[' :: idx ++ [']'])).getLast? = some ']' := by
              rw [show c :: (t ++ '[' :: idx ++ [']']) = (c :: (t ++ '[' :: idx)) ++ [']'] by simp,
                List.getLast?_append]
              rfl
            rw [hl] at hd
            exact (Option.some.inj hd).symm
          rw [this]; decide)
      simpa using this
  have hbr := valid_name_not_mem h '[' (by decide)
  have hs1 : strchr (name ++ '[' :: idx ++ [']']) '[' = some name.length := by
    rw [show name ++ '[' :: idx ++ [']'] = name ++ '[' :: (idx ++ [']']) by simp]
    exact strchr_append name '[' _ hbr
  have hsp := split_at_char name '[' (idx ++ [']'])
  have hs2 : strchr (idx ++ [']']) ']' = some idx.length := strchr_append idx ']' [] h1
  have hsp2 := split_at_char idx ']' []
  have htake : name.take MAX_VAR_NAME = name := List.take_of_length_le (valid_name_length h)
  unfold handle_assignment
  rw [hcmd, strchr_append _ '=' _ heq]
  simp only [(split_at_char (name ++ '[' :: idx ++ [']', ' ']) '=' (' ' :: rhs)).1,
    (split_at_char (name ++ '[' :: idx ++ [']', ' ']) '=' (' ' :: rhs)).2, htrim, hs1]
  rw [show name ++ '[' :: idx ++ [']'] = name ++ '[' :: (idx ++ [']']) by simp]
  simp only [hsp.1, hsp.2, hs2, hsp2.1, htake, evaluate_expression_trim,
    evaluate_expression_space]

theorem walk_nodes_in_range (l : List Element) (i : Nat) (h : i < l.length) :
    walk_nodes l (i : Int) = some i := by
  simp [walk_nodes, h]

/-- C9: with `a` a list variable of valid name, `i` a position of its list
    (and of the range of `int`) and `rhs` evaluating to a value `v` other than
    `NONE`, the command `a[i] = rhs` returns a table in which the list of `a`
    has the same length, holds `v` at position `i` and its former elements
    everywhere else, and in which every other name is looked up as before. -/
theorem handle_assignment_sets_index (fo : FloatOps) (vars : List Variable)
    (a rhs : List Char) (l : List Element) (i : Nat) (v : Element)
    (ha : is_valid_var_name a = true) (hav : value_of vars a = some (LIST l))
    (hi : i < l.length) (hint : i < 2 ^ 31)
    (hev : evaluate_expression fo vars rhs = some v) (hv : v ≠ NONE) :
    ∃ vars1 l1,
      handle_assignment fo vars (a ++ '[' :: Nat.toDigits 10 i ++ "] = ".toList ++ rhs)
        = some vars1 ∧
      value_of vars1 a = some (LIST l1) ∧ l1.length = l.length ∧ l1.get? i = some v ∧
      (∀ j, j ≠ i → l1.get? j = l.get? j) ∧
      (∀ y, y ≠ a → find_variable vars1 y = find_variable vars y) := by
  obtain ⟨w, hw, hwv⟩ : ∃ w, find_variable vars a = some w ∧ w.value = LIST l := by
    unfold value_of at hav
    cases hf : find_variable vars a with
    | none => simp [hf] at hav
    | some w => exact ⟨w, rfl, by simpa [hf] using hav⟩
  have hvt : v.type ≠ ElementType.NONE := fun h => hv ((type_none_iff v).mp h)
  have hform := handle_assignment_indexed fo vars a (Nat.toDigits 10 i) rhs ha
    (digit_not_mem i ']' (by decide)) (digit_not_mem i '=' (by decide))
  obtain ⟨wn, wv⟩ := w
  simp only at hwv
  subst hwv
  rw [hw] at hform
  simp only [hev, hvt, if_false, atoi_toDigits i hint, walk_nodes_in_range l i hi] at hform
  refine ⟨_, l.set i v, hform, ?_, ?_, ?_, ?_, ?_⟩
  · simp [value_of, find_set_value_same a _ vars _ hw]
  · simp
  · simp [List.getElem?_set, hi]
  · intro j hj
    simp [List.getElem?_set, Ne.symm hj]
  · intro y hy
    exact find_set_value_other a y _ hy vars

/-- C9, witness: `a[1] = 99` on the table `a = [10, 20, 30]`. -/
theorem handle_assignment_sets_index_witness :
    ∃ vars1 l1,
      handle_assignment zeroFloat table_a
          ("a".toList ++ '[' :: Nat.toDigits 10 1 ++ "] = ".toList ++ "99".toList)
        = some vars1 ∧
      value_of vars1 "a".toList = some (LIST l1) ∧
      l1.length = [LONG_INT 10, LONG_INT 20, LONG_INT 30].length ∧
      l1.get? 1 = some (LONG_INT 99) ∧
      (∀ j, j ≠ 1 → l1.get? j = [LONG_INT 10, LONG_INT 20, LONG_INT 30].get? j) ∧
      (∀ y, y ≠ "a".toList → find_variable vars1 y = find_variable table_a y) :=
  handle_assignment_sets_index zeroFloat table_a "a".toList "99".toList
    [LONG_INT 10, LONG_INT 20, LONG_INT 30] 1 (LONG_INT 99)
    (by decide) (by decide) (by decide) (by decide) (by decide) (by decide)

/-- C8, at the failing input: with `a = [10, 20, 30]` the operand `a[-1]`
    resolves to a copy of the first element, also as the right operand of
    `0 + a[-1]`, while `a[1]` gives 20 and `a[5]` gives `NONE`. -/
theorem parse_operand_negative_index :
    parse_operand zeroFloat table_a "a[-1]".toList = some (LONG_INT 10) ∧
    evaluate_expression zeroFloat table_a "0 + a[-1]".toList = some (LONG_INT 10) ∧
    parse_operand zeroFloat table_a "a[1]".toList = some (LONG_INT 20) ∧
    parse_operand zeroFloat table_a "a[5]".toList = some NONE := by
  decide

/-- C10, at the failing inputs: with `a = [10, 20, 30]` the command
    `a[-1] = 99` overwrites the first element; and a text of 16 characters
    before `[` is cut to 15 and then matches the variable of that name. -/
theorem handle_assignment_negative_index :
    handle_assignment zeroFloat table_a "a[-1] = 99".toList
      = some [{ name := "a".toList,
                value := LIST [LONG_INT 99, LONG_INT 20, LONG_INT 30] }] ∧
    parse_command zeroFloat table_a "a[-1] = 99".toList
      = some [{ name := "a".toList,
                value := LIST [LONG_INT 99, LONG_INT 20, LONG_INT 30] }] ∧
    find_variable table_name15 "abcdefghijklmnop".toList = none ∧
    handle_assignment zeroFloat table_name15 "abcdefghijklmnop[0] = 7".toList
      = some [{ name := "abcdefghijklmno".toList, value := LIST [LONG_INT 7] }] := by
  decide

theorem long_list_length : long_list.length = 2 ^ 31 + 1 := by
  unfold long_list
  rw [List.length_replicate]

theorem long_list_get (j : Nat) (h : j < 2 ^ 31 + 1) : long_list.get? j = some (LONG_INT 0) := by
  unfold long_list
  rw [List.get?_eq_getElem?, List.getElem?_replicate, if_pos h]

/-- C9, counterexample: in a list of `2^31 + 1` elements the position `2^31`
    is in range, yet `a[2147483648] = 1` does not store the value there: the
    index does not fit the `int` that holds it. -/
theorem indexed_assignment_beyond_int :
    value_of long_table "a".toList = some (LIST long_list) ∧
    2 ^ 31 < long_list.length ∧
    evaluate_expression zeroFloat long_table "1".toList = some (LONG_INT 1) ∧
    ¬ ∃ vars1 l1,
      handle_assignment zeroFloat long_table
          ("a".toList ++ '[' :: Nat.toDigits 10 (2 ^ 31) ++ "] = ".toList ++ "1".toList)
        = some vars1 ∧
      value_of vars1 "a".toList = some (LIST l1) ∧ l1.get? (2 ^ 31) = some (LONG_INT 1) := by
  have hval : value_of long_table "a".toList = some (LIST long_list) := by
    simp [value_of, long_table, find_variable]
  have hev : evaluate_expression zeroFloat long_table "1".toList = some (LONG_INT 1) := by
    decide
  refine ⟨hval, by rw [long_list_length]; omega, hev, ?_⟩
  rintro ⟨vars1, l1, h1, h2, h3⟩
  have hform := handle_assignment_indexed zeroFloat long_table "a".toList
    (Nat.toDigits 10 (2 ^ 31)) "1".toList (by decide) (digit_not_mem _ ']' (by decide))
    (digit_not_mem _ '=' (by decide))
  have hfind : find_variable long_table "a".toList
      = some { name := "a".toList, value := LIST long_list } := by
    simp [long_table, find_variable]
  have hatoi : atoi (Nat.toDigits 10 (2 ^ 31)) = -(2 ^ 31) := by decide
  have hwalk : walk_nodes long_list (-(2 ^ 31)) = some 0 := by
    unfold walk_nodes
    rw [long_list_length]
    rfl
  rw [hfind] at hform
  simp only [hev, hatoi, hwalk] at hform
  rw [hform] at h1
  rw [if_neg (by decide)] at h1
  simp only [Option.some.injEq] at h1
  subst h1
  have hv : value_of (set_value long_table "a".toList (LIST (long_list.set 0 (LONG_INT 1))))
      "a".toList = some (LIST (long_list.set 0 (LONG_INT 1))) := by
    unfold value_of
    rw [find_set_value_same _ _ long_table _ hfind]
    rfl
  rw [hv] at h2
  simp only [Option.some.injEq, LIST.injEq] at h2
  subst h2
  rw [List.get?_eq_getElem?, List.getElem?_set_ne (by decide), ← List.get?_eq_getElem?,
    long_list_get _ (by omega)] at h3
  exact absurd h3 (by decide)

/-! ## List literals -/

theorem parse_list_loop_segment (ev : List Char → Option Element) :
    ∀ (s rest : List Char) (d d1 : Int) (tok : List Char) (acc : List Element),
      segment_depth s d = some d1 →
      parse_list_loop ev (s ++ rest) d tok acc = parse_list_loop ev rest d1 (tok ++ s) acc
  | [], rest, d, d1, tok, acc, h => by
    simp only [segment_depth, Option.some.injEq] at h
    subst h
    simp
  | c :: t, rest, d, d1, tok, acc, h => by
    have key : ∀ d2 : Int,
        (if d2 < 0 then none else if c = ',' ∧ d2 = 0 then none else segment_depth t d2)
          = some d1 → ¬ (c = ',' ∧ d2 = 0) ∧ segment_depth t d2 = some d1 := by
      intro d2 hh
      split_ifs at hh with h1 h2
      exact ⟨h2, hh⟩
    obtain ⟨hc, ht⟩ := key _ h
    have ih := parse_list_loop_segment ev t rest _ d1 (tok ++ [c]) acc ht
    show (if c = ',' ∧ (if c = '[' then d + 1 else if c = ']' then d - 1 else d) = 0 then _
      else parse_list_loop ev (t ++ rest) _ (tok ++ [c]) acc) = _
    rw [if_neg hc, ih]
    simp

/-- The loop of `parse_list_literal` over segments joined by commas. -/
theorem parse_list_loop_join (ev : List Char → Option Element) :
    ∀ (segs : List (List Char)) (s : List Char) (acc : List Element),
      (∀ x ∈ s :: segs, is_segment x = true) →
      parse_list_loop ev (join_with [','] (s :: segs)) 0 [] acc =
        (s :: segs).foldlM (fun a x => list_token ev x a) acc
  | [], s, acc, h => by
    have hs : segment_depth s 0 = some 0 := by
      simpa [is_segment] using h s (List.mem_cons_self _ _)
    have := parse_list_loop_segment ev s [] 0 0 [] acc hs
    simp only [List.append_nil, List.nil_append] at this
    simp [join_with, this, parse_list_loop]
  | y :: segs, s, acc, h => by
    have hs : segment_depth s 0 = some 0 := by
      simpa [is_segment] using h s (List.mem_cons_self _ _)
    have h1 := parse_list_loop_segment ev s (',' :: join_with [','] (y :: segs)) 0 0 [] acc hs
    simp only [List.nil_append] at h1
    have ih := fun a => parse_list_loop_join ev segs y a
      (fun x hx => h x (List.mem_cons_of_mem _ hx))
    simp only [join_with, List.append_assoc, List.singleton_append, h1, parse_list_loop]
    simp only [List.foldlM_cons]
    simp [ih]

theorem foldlM_list_token (ev : List Char → Option Element) :
    ∀ (segs : List (List Char)) (acc : List Element),
      segs.foldlM (fun a x => list_token ev x a) acc =
        (((segs.map trimmed).filter (fun s => !s.isEmpty)).mapM ev).map (fun vs => acc ++ vs)
  | [], acc => by
    simp only [List.foldlM_nil, List.map_nil, List.filter_nil, List.mapM_nil]
    simp
  | s :: segs, acc => by
    simp only [List.foldlM_cons, List.map_cons, List.filter_cons]
    cases hs : trimmed s with
    | nil =>
      have : list_token ev s acc = some acc := by
        simp [list_token, trimmed] at hs ⊢
        simp [hs]
      rw [this]
      simp [foldlM_list_token ev segs acc]
    | cons c t =>
      have : list_token ev s acc = (ev (c :: t)).map (fun v => acc ++ [v]) := by
        unfold trimmed at hs
        simp [list_token, hs]
      rw [this]
      simp only [List.isEmpty_cons, Bool.not_false, if_true, List.mapM_cons]
      cases ev (c :: t) with
      | none => simp
      | some v =>
        have ih := foldlM_list_token ev segs (acc ++ [v])
        simp only [Option.map_some', Option.bind_eq_bind, Option.some_bind]
        rw [ih]
        cases List.mapM ev (List.filter (fun s => !s.isEmpty) (List.map trimmed segs)) with
        | none => simp
        | some vs => simp

/-- A bracketed operand is handed to `parse_list_literal` without its
    brackets. -/
theorem parse_operand_brackets (fo : FloatOps) (vars : List Variable) (content : List Char) :
    parse_operand fo vars ('[' :: content ++ [']']) =
      (parse_list_literal (evaluate_expression fo vars) content).map LIST := by
  rw [parse_operand_unfold]
  unfold parse_operand_body
  have hlast : ('[' :: (content ++ [']'])).getLast? = some ']' := by
    rw [show '[' :: (content ++ [']']) = ('[' :: content) ++ [']'] by simp,
      List.getLast?_append]
    rfl
  have htrim : chop_space (skip_space ('[' :: content ++ [']'])) = '[' :: content ++ [']'] := by
    have := trim_pad [] [] '[' (content ++ [']']) (by simp) (by simp) (by decide)
      (by
        intro d hd
        rw [hlast] at hd
        rw [← Option.some.inj hd]
        decide)
    simpa using this
  have hcontent : ('[' :: content ++ [']']).tail.dropLast = content := by
    simp
  have hlast2 : ('[' :: content ++ [']']).getLast? = some ']' := by
    simpa using hlast
  simp only [htrim, hcontent, hlast2]
  simp

/-- C11: the operand `[s1,s2,...,sn]`, each segment bracket-balanced and
    without a comma at depth zero, resolves to the list of the values of the
    trimmed segments that are not empty, in order (and to nothing when the
    evaluation of one of them does not return); `[1, [2, 3], 4]` gives three
    elements, the middle one the list `[2, 3]`. -/
theorem parse_operand_list_literal (fo : FloatOps) (vars : List Variable)
    (segs : List (List Char)) (h : ∀ s ∈ segs, is_segment s = true) :
    parse_operand fo vars ('[' :: join_with [','] segs ++ [']']) =
      (((segs.map trimmed).filter (fun s => !s.isEmpty)).mapM
        (evaluate_expression fo vars)).map LIST ∧
    parse_operand zeroFloat [] "[1, [2, 3], 4]".toList =
      some (LIST [LONG_INT 1, LIST [LONG_INT 2, LONG_INT 3], LONG_INT 4]) := by
  refine ⟨?_, by decide⟩
  rw [parse_operand_brackets]
  unfold parse_list_literal
  cases segs with
  | nil =>
    simp only [List.map_nil, List.filter_nil, List.mapM_nil]
    simp [join_with, parse_list_loop, list_token, chop_space, skip_space]
  | cons s segs =>
    rw [parse_list_loop_join _ segs s [] h, foldlM_list_token]
    simp

/-- C11, witness: the segments of `[1, [2, 3], 4]`. -/
theorem parse_operand_list_literal_witness :
    parse_operand zeroFloat table_a
        ('[' :: join_with [','] ["a[0]".toList, " [2, 3]".toList, " ".toList, " 4".toList]
          ++ [']']) =
      some (LIST [LONG_INT 10, LIST [LONG_INT 2, LONG_INT 3], LONG_INT 4]) :=
  ((parse_operand_list_literal zeroFloat table_a
    ["a[0]".toList, " [2, 3]".toList, " ".toList, " 4".toList] (by decide)).1).trans
    (by decide)

/-! ## `append` -/

/-- What `handle_append` does with `append(name,e)` when `name` holds neither
    `,` nor `)` and `e` holds no `)`. -/
theorem handle_append_split (fo : FloatOps) (vars : List Variable) (name e : List Char)
    (h1 : ',' ∉ name) (h2 : ')' ∉ name) (h3 : ')' ∉ e) :
    handle_append fo vars ("append(".toList ++ name ++ ',' :: e ++ [')']) =
      match find_variable vars (skip_space name) with
      | some { name := _, value := LIST l } =>
        match evaluate_expression fo vars e with
        | none => none
        | some value_to_append =>
          if value_to_append.type = ElementType.NONE then some vars
          else some (set_value vars (skip_space name) (LIST (l ++ [value_to_append])))
      | _ => some vars := by
  have hcmd : "append(".toList ++ name ++ ',' :: e ++ [')']
      = ("append(".toList ++ name ++ ',' :: e) ++ ')' :: [] := by
    simp
  have hp1 : strchr ("append(".toList ++ name ++ ',' :: e ++ [')']) '(' = some 6 := by
    have : "append(".toList ++ name ++ ',' :: e ++ [')']
        = "append".toList ++ '(' :: (name ++ ',' :: e ++ [')']) := by
      simp
    rw [this, strchr_append _ _ _ (by decide)]
    rfl
  have hp2 : strchr ("append(".toList ++ name ++ ',' :: e ++ [')']) ')'
      = some ("append(".toList ++ name ++ ',' :: e).length := by
    rw [hcmd]
    apply strchr_append
    simp only [List.mem_append, List.mem_cons, not_or]
    exact ⟨⟨by decide, h2⟩, by decide, h3⟩
  unfold handle_append
  rw [hp1, hp2]
  have hlt : ¬ (("append(".toList ++ name ++ ',' :: e).length ≤ 6) := by
    simp [List.length_append]
  have hargs : (("append(".toList ++ name ++ ',' :: e ++ [')']).take
      ("append(".toList ++ name ++ ',' :: e).length).drop (6 + 1) = name ++ ',' :: e := by
    rw [hcmd, List.take_left']
    · simp
    · rfl
  simp only [hlt, if_false, hargs, strchr_append name ',' _ h1,
    (split_at_char name ',' _).1, (split_at_char name ',' _).2, evaluate_expression_skip]

/-- C12: with `c` a list variable of valid name holding `es`, and `e` without
    `)` evaluating to a value `v` other than `NONE`, `append(c, e)` returns a
    table in which `c` holds `es ++ [v]` and every other name is looked up as
    before; `c = []`, `append(c, "x")`, `append(c, "y")` leave `c` printing as
    `["x", "y"]`. -/
theorem handle_append_tail (fo : FloatOps) (vars : List Variable) (c e : List Char)
    (es : List Element) (v : Element) (hc : is_valid_var_name c = true)
    (hcv : value_of vars c = some (LIST es)) (he : ')' ∉ e)
    (hev : evaluate_expression fo vars e = some v) (hv : v ≠ NONE) :
    (∃ vars1,
      handle_append fo vars ("append(".toList ++ c ++ ", ".toList ++ e ++ ")".toList)
        = some vars1 ∧
      value_of vars1 c = some (LIST (es ++ [v])) ∧
      (∀ y, y ≠ c → find_variable vars1 y = find_variable vars y)) ∧
    (run_commands zeroFloat []
        ["c = []".toList,
         "append(c, ".toList ++ [Char.ofNat 34, 'x', Char.ofNat 34] ++ ")".toList,
         "append(c, ".toList ++ [Char.ofNat 34, 'y', Char.ofNat 34] ++ ")".toList]).map
      (fun vars1 => handle_print zeroFloat vars1 "print(c)".toList)
      = some ([ '[', Char.ofNat 34, 'x', Char.ofNat 34, ',', ' ',
                Char.ofNat 34, 'y', Char.ofNat 34, ']', '\n']) := by
  refine ⟨?_, by decide⟩
  obtain ⟨w, hw, hwv⟩ : ∃ w, find_variable vars c = some w ∧ w.value = LIST es := by
    unfold value_of at hcv
    cases hf : find_variable vars c with
    | none => simp [hf] at hcv
    | some w => exact ⟨w, rfl, by simpa [hf] using hcv⟩
  have hvt : v.type ≠ ElementType.NONE := fun h => hv ((type_none_iff v).mp h)
  have hcmd : "append(".toList ++ c ++ ", ".toList ++ e ++ ")".toList
      = "append(".toList ++ c ++ ',' :: (' ' :: e) ++ [')'] := by
    simp
  have hform := handle_append_split fo vars c (' ' :: e)
    (valid_name_not_mem hc ',' (by decide)) (valid_name_not_mem hc ')' (by decide))
    (by
      simp only [List.mem_cons, not_or]
      exact ⟨by decide, he⟩)
  obtain ⟨wn, wv⟩ := w
  simp only at hwv
  subst hwv
  rw [valid_name_skip hc, hw] at hform
  simp only [evaluate_expression_space, hev, hvt, if_false] at hform
  rw [hcmd]
  refine ⟨_, hform, ?_, ?_⟩
  · unfold value_of
    rw [find_set_value_same c _ vars _ hw]
    rfl
  · intro y hy
    exact find_set_value_other c y _ hy vars

/-- C12, witness: `append(a, 4)` on the table `a = [10, 20, 30]`. -/
theorem handle_append_tail_witness :
    ∃ vars1,
      handle_append zeroFloat table_a
          ("append(".toList ++ "a".toList ++ ", ".toList ++ "4".toList ++ ")".toList)
        = some vars1 ∧
      value_of vars1 "a".toList
        = some (LIST ([LONG_INT 10, LONG_INT 20, LONG_INT 30] ++ [LONG_INT 4])) ∧
      (∀ y, y ≠ "a".toList → find_variable vars1 y = find_variable table_a y) :=
  (handle_append_tail zeroFloat table_a "a".toList "4".toList
    [LONG_INT 10, LONG_INT 20, LONG_INT 30] (LONG_INT 4)
    (by decide) (by decide) (by decide) (by decide) (by decide)).1

/-- C13: `append(name, e)` returns the table it was given when the name (read
    after the white space in front of it) is not in the table, or names a
    variable that is not a list, or `e` evaluates to `NONE`. -/
theorem handle_append_rejects (fo : FloatOps) (vars : List Variable) (name e : List Char)
    (h1 : ',' ∉ name) (h2 : ')' ∉ name) (h3 : ')' ∉ e)
    (h : find_variable vars (skip_space name) = none ∨
      (∃ w, find_variable vars (skip_space name) = some w ∧
        w.value.type ≠ ElementType.LIST) ∨
      evaluate_expression fo vars e = some NONE) :
    handle_append fo vars ("append(".toList ++ name ++ ',' :: e ++ [')']) = some vars := by
  rw [handle_append_split fo vars name e h1 h2 h3]
  rcases h with h | ⟨w, hw, hwt⟩ | h
  · rw [h]
  · rw [hw]
    obtain ⟨wn, wv⟩ := w
    cases wv <;> first | rfl | exact absurd rfl hwt
  · split
    · simp [h, Element.type]
    · rfl

/-- C13, witness: an unknown name, a variable that is no list, and a value
    expression that divides by zero. -/
theorem handle_append_rejects_witness :
    handle_append zeroFloat table_a
      ("append(".toList ++ "b".toList ++ ',' :: " 4".toList ++ [')']) = some table_a ∧
    handle_append zeroFloat [{ name := "n".toList, value := LONG_INT 1 }]
      ("append(".toList ++ "n".toList ++ ',' :: " 4".toList ++ [')'])
        = some [{ name := "n".toList, value := LONG_INT 1 }] ∧
    handle_append zeroFloat table_a
      ("append(".toList ++ "a".toList ++ ',' :: " 5 / 0".toList ++ [')']) = some table_a :=
  ⟨handle_append_rejects zeroFloat table_a "b".toList " 4".toList
      (by decide) (by decide) (by decide) (Or.inl (by decide)),
   handle_append_rejects zeroFloat _ "n".toList " 4".toList
      (by decide) (by decide) (by decide)
      (Or.inr (Or.inl ⟨{ name := "n".toList, value := LONG_INT 1 }, by decide, by decide⟩)),
   handle_append_rejects zeroFloat table_a "a".toList " 5 / 0".toList
      (by decide) (by decide) (by decide) (Or.inr (Or.inr (by decide)))⟩

/-! ## Printing -/

theorem fmt_lld_eq_toString (v : Int) : fmt_lld v = (toString v).toList := by
  cases v with
  | ofNat m =>
    have h : ¬ ((Int.ofNat m) < 0) := by simp
    simp only [fmt_lld, h, if_false]
    show Nat.toDigits 10 (Int.toNat (Int.ofNat m)) = (Nat.repr m).toList
    simp [Nat.repr, List.asString]
  | negSucc m =>
    have h : (Int.negSucc m) < 0 := Int.negSucc_lt_zero m
    simp only [fmt_lld, h, if_true]
    show '-' :: Nat.toDigits 10 (Int.natAbs (Int.negSucc m))
      = ("-" ++ Nat.repr (Nat.succ m)).toList
    simp [Nat.repr, List.asString]

mutual
theorem print_element_eq_canonical (fo : FloatOps) :
    ∀ v : Element, no_float v = true → print_element fo v = canonical v
  | LONG_INT v, _ => by simp [print_element, canonical, fmt_lld_eq_toString]
  | DOUBLE _, h => by simp [no_float] at h
  | CHAR _, _ => by simp [print_element, canonical]
  | STRING _, _ => by simp [print_element, canonical]
  | LIST l, h => by
    simp only [no_float] at h
    simp [print_element, canonical, print_nodes_eq_canonical fo l h]
  | NONE, _ => by simp [print_element, canonical]
theorem print_nodes_eq_canonical (fo : FloatOps) :
    ∀ l : List Element, no_float_nodes l = true →
      print_nodes fo l = join_with [',', ' '] (canonical_each l)
  | [], _ => by simp [print_nodes, canonical_each, join_with]
  | x :: t, h => by
    simp only [no_float_nodes, Bool.and_eq_true] at h
    have hx := print_element_eq_canonical fo x h.1
    have ht := print_nodes_eq_canonical fo t h.2
    cases t with
    | nil => simp [print_nodes, canonical_each, join_with, hx]
    | cons y t =>
      simp only [print_nodes, canonical_each, join_with, hx] at ht ⊢
      rw [← ht]
      simp [print_nodes]
end

/-- C14: for every element without a double `print_element` writes the
    canonical text: the decimal numeral of an Integer, `'c'` for a Char,
    `"s"` for a Text, `None` for Empty, and for a List the texts of its
    elements between `[` and `]`, joined by `, `. -/
theorem print_element_canonical (fo : FloatOps) (v : Element) (h : no_float v = true) :
    print_element fo v = canonical v ∧
    canonical (LIST []) = "[]".toList ∧
    canonical (LONG_INT (-12)) = "-12".toList :=
  ⟨print_element_eq_canonical fo v h, by decide, by decide⟩

/-- C14, witness: the list `[1, 'c', "ab", None, [], [-2]]`. -/
theorem print_element_canonical_witness :
    print_element zeroFloat
        (LIST [LONG_INT 1, CHAR 'c', STRING "ab".toList, NONE, LIST [], LIST [LONG_INT (-2)]])
      = "[1, 'c', ".toList ++ [Char.ofNat 34, 'a', 'b', Char.ofNat 34]
          ++ ", None, [], [-2]]".toList :=
  ((print_element_canonical zeroFloat
    (LIST [LONG_INT 1, CHAR 'c', STRING "ab".toList, NONE, LIST [], LIST [LONG_INT (-2)]])
    (by decide)).1).trans (by decide)

/-! ## The invariant of the variable table -/

theorem set_value_names (name : List Char) (e : Element) :
    ∀ vars : List Variable,
      (set_value vars name e).map (fun v => v.name) = vars.map (fun v => v.name)
  | [] => rfl
  | w :: t => by
    by_cases hw : w.name = name
    · simp [set_value, hw]
    · simp [set_value, hw, set_value_names name e t]

theorem find_variable_none_iff (name : List Char) :
    ∀ vars : List Variable,
      find_variable vars name = none ↔ name ∉ vars.map (fun v => v.name)
  | [] => by simp [find_variable]
  | w :: t => by
    by_cases hw : w.name = name
    · simp [find_variable, hw]
    · have hw2 : ¬ name = w.name := fun h => hw h.symm
      simp [find_variable, hw, hw2, find_variable_none_iff name t]

theorem handle_append_names (fo : FloatOps) (vars vars1 : List Variable)
    (command : List Char) (h : handle_append fo vars command = some vars1) :
    vars1.map (fun v => v.name) = vars.map (fun v => v.name) := by
  unfold handle_append at h
  simp only at h
  repeat' split at h
  all_goals first
    | (cases h; rfl)
    | (cases h; exact set_value_names _ _ _)
    | simp at h

theorem handle_assignment_names (fo : FloatOps) (vars vars1 : List Variable)
    (command : List Char) (h : handle_assignment fo vars command = some vars1) :
    vars1.map (fun v => v.name) = vars.map (fun v => v.name) ∨
    ∃ x, is_valid_var_name x = true ∧ find_variable vars x = none ∧
      vars1.map (fun v => v.name) = x :: vars.map (fun v => v.name) := by
  unfold handle_assignment at h
  simp only at h
  repeat' split at h
  all_goals first
    | (cases h; exact Or.inl rfl)
    | (cases h; exact Or.inl (set_value_names _ _ _))
    | (simp at h; done)
    | skip
  rename_i hvalid _ _ _ _ _ hfind
  cases h
  right
  refine ⟨_, by simpa using hvalid, hfind, ?_⟩
  rw [set_value_names]
  simp only [create_variable, List.map_cons, List.cons.injEq, and_true]
  exact List.take_of_length_le (valid_name_length (by simpa using hvalid))

theorem parse_command_names (fo : FloatOps) (vars vars1 : List Variable)
    (command : List Char) (h : parse_command fo vars command = some vars1) :
    vars1.map (fun v => v.name) = vars.map (fun v => v.name) ∨
    ∃ x, is_valid_var_name x = true ∧ find_variable vars x = none ∧
      vars1.map (fun v => v.name) = x :: vars.map (fun v => v.name) := by
  unfold parse_command at h
  simp only at h
  split_ifs at h
  · cases h; exact Or.inl rfl
  · exact Or.inl (handle_append_names fo vars vars1 _ h)
  · exact handle_assignment_names fo vars vars1 _ h
  · cases h; exact Or.inl rfl

theorem table_ok_of_names (vars vars1 : List Variable) (hok : table_ok vars)
    (h : vars1.map (fun v => v.name) = vars.map (fun v => v.name) ∨
      ∃ x, is_valid_var_name x = true ∧ find_variable vars x = none ∧
        vars1.map (fun v => v.name) = x :: vars.map (fun v => v.name)) :
    table_ok vars1 := by
  have hall : ∀ vs : List Variable,
      (∀ v ∈ vs, is_valid_var_name v.name = true) ↔
        ∀ n ∈ vs.map (fun v => v.name), is_valid_var_name n = true := by
    intro vs
    simp
  unfold table_ok at hok ⊢
  rw [hall] at hok ⊢
  rcases h with h | ⟨x, hx, hf, h⟩
  · rw [h]; exact hok
  · rw [h]
    refine ⟨List.nodup_cons.mpr ⟨(find_variable_none_iff x vars).mp hf, hok.1⟩, ?_⟩
    intro n hn
    rcases List.mem_cons.mp hn with rfl | hn
    · exact hx
    · exact hok.2 n hn

theorem run_commands_ok (fo : FloatOps) :
    ∀ (commands : List (List Char)) (vars vars1 : List Variable),
      table_ok vars → run_commands fo vars commands = some vars1 → table_ok vars1
  | [], vars, vars1, hok, h => by
    simp only [run_commands, Option.some.injEq] at h
    rw [← h]; exact hok
  | c :: cs, vars, vars1, hok, h => by
    simp only [run_commands] at h
    cases hp : parse_command fo vars c with
    | none => simp [hp] at h
    | some vars2 =>
      rw [hp] at h
      exact run_commands_ok fo cs vars2 vars1
        (table_ok_of_names vars vars2 hok (parse_command_names fo vars vars2 c hp)) h

theorem reachable_ok (fo : FloatOps) (vars : List Variable) (h : reachable fo vars) :
    table_ok vars := by
  obtain ⟨commands, hc⟩ := h
  exact run_commands_ok fo commands [] vars ⟨by simp, by simp⟩ hc

/-- C20: in every table that a sequence of commands produces from the empty
    table through `parse_command`, no two variables have the same name and
    every name is valid: 1 to 15 characters, the first alphabetic, the others
    alphanumeric or an underscore. -/
theorem reachable_table_invariant (fo : FloatOps) (commands : List (List Char))
    (vars : List Variable) (h : run_commands fo [] commands = some vars) :
    (vars.map (fun v => v.name)).Nodup ∧
    ∀ v ∈ vars, is_valid_var_name v.name = true ∧
      1 ≤ v.name.length ∧ v.name.length ≤ 15 ∧
      ∃ c rest, v.name = c :: rest ∧ isalpha c = true ∧
        ∀ d ∈ rest, (isalnum d = true ∨ d = '_') := by
  have hok := reachable_ok fo vars ⟨commands, h⟩
  refine ⟨hok.1, fun v hv => ⟨hok.2 v hv, (valid_name_iff v.name).mp (hok.2 v hv)⟩⟩

/-- C20, witness: the table after `x = 1`, `y = [x, 2]`, `x = 3`, `append(y, x)`. -/
theorem reachable_table_invariant_witness :
    (([{ name := "y".toList, value := LIST [LONG_INT 1, LONG_INT 2, LONG_INT 3] },
       { name := "x".toList, value := LONG_INT 3 }] : List Variable).map
        (fun v => v.name)).Nodup ∧
    ∀ v ∈ ([{ name := "y".toList, value := LIST [LONG_INT 1, LONG_INT 2, LONG_INT 3] },
            { name := "x".toList, value := LONG_INT 3 }] : List Variable),
      is_valid_var_name v.name = true ∧
      1 ≤ v.name.length ∧ v.name.length ≤ 15 ∧
      ∃ c rest, v.name = c :: rest ∧ isalpha c = true ∧
        ∀ d ∈ rest, (isalnum d = true ∨ d = '_') :=
  reachable_table_invariant zeroFloat
    ["x = 1".toList, "y = [x, 2]".toList, "x = 3".toList, "append(y, x)".toList] _
    (by decide)

/-! ## Integer literals and self-assignment in reachable tables -/

theorem digits_value_eq_foldl :
    ∀ (ds : List Char) (acc : Nat), (∀ c ∈ ds, isdigit c = true) →
      digits_value ds acc = ds.foldl (fun a c => a * 10 + (c.toNat - 48)) acc
  | [], _, _ => rfl
  | c :: t, acc, h => by
    have hc : isdigit c = true := h c (List.mem_cons_self _ _)
    simp only [digits_value, hc, if_true, List.foldl_cons]
    exact digits_value_eq_foldl t _ (fun d hd => h d (List.mem_cons_of_mem _ hd))

theorem digit_char_bounds {c : Char} (h : isdigit c = true) : 48 ≤ c.toNat ∧ c.toNat ≤ 57 := by
  simpa [isdigit] using h

theorem digit_not_space {c : Char} (h : isdigit c = true) : isspace c = false := by
  have := digit_char_bounds h
  simp only [isspace, Bool.or_eq_false_iff, Bool.and_eq_false_iff, beq_eq_false_iff_ne,
    decide_eq_false_iff_not]
  omega

theorem digit_ne {c : Char} (h : isdigit c = true) (d : Char)
    (hd : d.toNat < 48 ∨ 57 < d.toNat) : c ≠ d := by
  have := digit_char_bounds h
  rintro rfl
  omega

theorem digits_not_mem {ds : List Char} (h : ∀ c ∈ ds, isdigit c = true) (d : Char)
    (hd : d.toNat < 48 ∨ 57 < d.toNat) : d ∉ ds :=
  fun hm => digit_ne (h d hm) d hd rfl

theorem digits_trim {ds : List Char} (h : ∀ c ∈ ds, isdigit c = true) :
    chop_space (skip_space ds) = ds := by
  cases ds with
  | nil => rfl
  | cons c t =>
    have := trim_pad [] [] c t (by simp) (by simp)
      (digit_not_space (h c (List.mem_cons_self _ _)))
      (fun d hd => digit_not_space (h d (List.mem_of_mem_getLast? hd)))
    simpa using this

theorem digits_not_valid_name {ds : List Char} (hne : ds ≠ [])
    (h : ∀ c ∈ ds, isdigit c = true) : is_valid_var_name ds = false := by
  cases ds with
  | nil => exact absurd rfl hne
  | cons c t =>
    have hb := digit_char_bounds (h c (List.mem_cons_self _ _))
    have ha : isalpha c = false := by
      simp only [isalpha, Bool.or_eq_false_iff, Bool.and_eq_false_iff, decide_eq_false_iff_not]
      omega
    simp [is_valid_var_name, ha]

theorem find_variable_mem (name : List Char) :
    ∀ (vars : List Variable) (w : Variable), find_variable vars name = some w → w ∈ vars
  | [], _, h => by simp [find_variable] at h
  | u :: t, w, h => by
    by_cases hu : u.name = name
    · simp only [find_variable, hu, if_true, Option.some.injEq] at h
      rw [← h]; exact List.mem_cons_self _ _
    · simp only [find_variable, hu, if_false] at h
      exact List.mem_cons_of_mem _ (find_variable_mem name t w h)

theorem table_ok_find_valid {vars : List Variable} (hok : table_ok vars) {name : List Char}
    {w : Variable} (h : find_variable vars name = some w) : is_valid_var_name name = true := by
  have := hok.2 w (find_variable_mem name vars w h)
  rwa [find_variable_name name vars w h] at this

/-- A string of digits resolves to the saturated value it denotes wherever no
    variable has an invalid name. -/
theorem parse_operand_digits (fo : FloatOps) (vars : List Variable) (ds : List Char)
    (hok : table_ok vars) (hne : ds ≠ []) (hd : ∀ c ∈ ds, isdigit c = true) :
    parse_operand fo vars ds
      = some (LONG_INT (max (-(2 ^ 63)) (min (decimal_value ds : Int) (2 ^ 63 - 1)))) := by
  rw [parse_operand_unfold]
  unfold parse_operand_body
  have hlen : ds.length ≠ 0 := fun e => hne (List.length_eq_zero.mp e)
  have hbr := digits_not_mem hd '[' (by decide)
  have hdot := digits_not_mem hd '.' (by decide)
  have hhead : ds.head? ≠ some '[' := fun e => hbr (List.mem_of_mem_head? e)
  have hfind : find_variable vars ds = none := by
    cases hf : find_variable vars ds with
    | none => rfl
    | some w =>
      have := table_ok_find_valid hok hf
      rw [digits_not_valid_name hne hd] at this
      exact absurd this (by simp)
  simp only [digits_trim hd, hlen, if_false, hhead, false_and, strchr_none ds '[' hbr, hfind,
    strchr_none ds '.' hdot]
  cases ds with
  | nil => exact absurd rfl hne
  | cons c t =>
    have hc := hd c (List.mem_cons_self _ _)
    have hsp := digit_not_space hc
    have hm : c ≠ '-' := digit_ne hc '-' (by decide)
    have hp : c ≠ '+' := digit_ne hc '+' (by decide)
    have hv := digits_value_eq_foldl (c :: t) 0 hd
    simp only [List.get?_cons_zero, hc, Bool.true_or, if_true, Option.isSome_none,
      Bool.false_eq_true, if_false, atoll, strtoll, List.dropWhile_cons, hsp, hm, hp, hv,
      decimal_value]

theorem digits_strpbrk {ds : List Char} (h : ∀ c ∈ ds, isdigit c = true) :
    strpbrk ds ['+', '-', '*', '/'] = none := by
  unfold strpbrk
  apply find_first_none
  intro c hc
  have b1 : (c == '+') = false := by simp [digit_ne (h c hc) '+' (by decide)]
  have b2 : (c == '-') = false := by simp [digit_ne (h c hc) '-' (by decide)]
  have b3 : (c == '*') = false := by simp [digit_ne (h c hc) '*' (by decide)]
  have b4 : (c == '/') = false := by simp [digit_ne (h c hc) '/' (by decide)]
  simp [List.contains, List.elem, b1, b2, b3, b4]

/-- The shared content of the statement on integer literals. -/
theorem integer_literal_value (fo : FloatOps) (vars : List Variable) (ds : List Char)
    (hok : table_ok vars) (hne : ds ≠ []) (hd : ∀ c ∈ ds, isdigit c = true)
    (hfit : decimal_value ds < 2 ^ 63) :
    evaluate_expression fo vars ds = some (LONG_INT (decimal_value ds)) ∧
    evaluate_expression fo vars ('-' :: ds) = some NONE := by
  have hlen : ds.length ≠ 0 := fun e => hne (List.length_eq_zero.mp e)
  have hpo := parse_operand_digits fo vars ds hok hne hd
  have hclamp : max (-(2 ^ 63)) (min (decimal_value ds : Int) (2 ^ 63 - 1))
      = (decimal_value ds : Int) := by omega
  rw [hclamp] at hpo
  constructor
  · rw [evaluate_expression_unfold]
    unfold evaluate_expression_body
    simp only [digits_trim hd, hlen, if_false, digits_strpbrk hd]
    exact hpo
  · rw [evaluate_expression_unfold]
    unfold evaluate_expression_body
    have htrim : chop_space (skip_space ('-' :: ds)) = '-' :: ds := by
      have := trim_pad [] [] '-' ds (by simp) (by simp) (by decide)
        (by
          intro d hdl
          cases ds with
          | nil => exact absurd rfl hne
          | cons c t =>
            rw [List.getLast?_cons_cons] at hdl
            exact digit_not_space (hd d (List.mem_of_mem_getLast? hdl)))
      simpa using this
    have hop : strpbrk ('-' :: ds) ['+', '-', '*', '/'] = some 0 := by
      simp [strpbrk, find_first]
    have hempty : parse_operand fo vars [] = some NONE := by
      rw [parse_operand_unfold]
      simp [parse_operand_body, skip_space, chop_space]
    simp only [htrim, hop]
    simp [hempty, hpo, Element.type]

/-- C17, counterexample: in the empty table `-5` evaluates to `NONE`, not to
    the Integer -5. -/
theorem negative_literal_not_integer :
    reachable zeroFloat [] ∧
    evaluate_expression zeroFloat [] "-5".toList ≠ some (LONG_INT (-5)) ∧
    evaluate_expression zeroFloat [] "-5".toList = some NONE :=
  ⟨⟨[], rfl⟩, by decide, by decide⟩

/-- C17, amended: in every table reachable by commands, a string of one or
    more decimal digits whose value fits 64 bits evaluates to the Integer it
    denotes, and the same digits after a `-` evaluate to `NONE`: the leading
    `-` is taken for the operator of an expression without left operand. -/
theorem evaluate_expression_integer_literal (fo : FloatOps) (vars : List Variable)
    (ds : List Char) (hr : reachable fo vars) (hne : ds ≠ [])
    (hd : ∀ c ∈ ds, isdigit c = true) (hfit : decimal_value ds < 2 ^ 63) :
    evaluate_expression fo vars ds = some (LONG_INT (decimal_value ds)) ∧
    evaluate_expression fo vars ('-' :: ds) = some NONE :=
  integer_literal_value fo vars ds (reachable_ok fo vars hr) hne hd hfit

/-- C17, witness: `42` and `-42` after `a = [10, 20, 30]`. -/
theorem evaluate_expression_integer_literal_witness :
    evaluate_expression zeroFloat table_a "42".toList = some (LONG_INT 42) ∧
    evaluate_expression zeroFloat table_a ('-' :: "42".toList) = some NONE :=
  evaluate_expression_integer_literal zeroFloat table_a "42".toList
    ⟨["a = [10, 20, 30]".toList], by decide⟩ (by decide) (by decide) (by decide)

theorem set_value_self (name : List Char) :
    ∀ (vars : List Variable) (w : Variable), find_variable vars name = some w →
      set_value vars name w.value = vars
  | [], _, h => by simp [find_variable] at h
  | u :: t, w, h => by
    by_cases hu : u.name = name
    · simp only [find_variable, hu, if_true, Option.some.injEq] at h
      subst h
      subst hu
      simp [set_value]
    · simp only [find_variable, hu, if_false] at h
      simp only [set_value, hu, if_false]
      rw [set_value_self name t w h]

theorem not_prefix_of_not_mem (p s : List Char) (c : Char) (hc : c ∈ p) (hs : c ∉ s) :
    p.isPrefixOf s = false := by
  cases h : p.isPrefixOf s with
  | false => rfl
  | true =>
    have hp : p <+: s := List.isPrefixOf_iff_prefix.mp h
    exact absurd (hp.subset hc) hs

/-- Assigning a variable of valid name to itself returns the table as it is. -/
theorem self_assignment (fo : FloatOps) (vars : List Variable) (x : List Char) (w : Variable)
    (hx : is_valid_var_name x = true) (hf : find_variable vars x = some w) :
    parse_command fo vars (x ++ " = ".toList ++ x) = some vars := by
  have hcmd : x ++ " = ".toList ++ x = (x ++ [' ']) ++ '=' :: (' ' :: x) := by
    simp
  have hparen : '(' ∉ x ++ " = ".toList ++ x := by
    simp only [List.mem_append, not_or]
    exact ⟨⟨valid_name_not_mem hx '(' (by decide), by decide⟩,
      valid_name_not_mem hx '(' (by decide)⟩
  have heq : '=' ∉ x ++ [' '] := by
    simp only [List.mem_append, List.mem_singleton, not_or]
    exact ⟨valid_name_not_mem hx '=' (by decide), by decide⟩
  have htrim : chop_space (skip_space (x ++ [' '])) = x := by
    have := valid_name_trim_pad hx [] [' '] (by simp) (by decide)
    simpa using this
  have hskip : skip_space (x ++ " = ".toList ++ x) = x ++ " = ".toList ++ x := by
    have hch := valid_name_chars hx
    cases hn : x with
    | nil => exact absurd hn (valid_name_ne_nil hx)
    | cons c t =>
      have := ident_char_not_space (hch c (by rw [hn]; exact List.mem_cons_self _ _))
      simp [skip_space, this]
  have hassign : handle_assignment fo vars (x ++ " = ".toList ++ x) = some vars := by
    rw [hcmd, handle_assignment_plain fo vars (x ++ [' ']) (' ' :: x) heq
      (by rw [htrim]; exact valid_name_not_mem hx '[' (by decide))]
    rw [htrim, evaluate_expression_space, evaluate_expression_var fo vars x w hx hf, hf]
    simp only [hx, Bool.true_eq_false, if_false]
    by_cases hn : w.value.type = ElementType.NONE
    · simp [hn]
    · simp only [hn, if_false]
      rw [set_value_self x vars w hf]
  unfold parse_command
  simp only [hskip, not_prefix_of_not_mem "print(".toList _ '(' (by decide) hparen,
    not_prefix_of_not_mem "append(".toList _ '(' (by decide) hparen, Bool.false_eq_true,
    if_false]
  rw [hcmd, strchr_append _ '=' _ heq, ← hcmd]
  simpa using hassign

/-- C19: in a table reachable by commands, `x = x` for a variable `x` of the
    table returns the same table, so the value of `x` and of every other
    variable is what it was, and repeating the command any number of times
    gives the same table again. -/
theorem self_assignment_idempotent (fo : FloatOps) (vars : List Variable) (x : List Char)
    (hr : reachable fo vars) (hx : (find_variable vars x).isSome = true) :
    parse_command fo vars (x ++ " = ".toList ++ x) = some vars ∧
    ∀ n, run_commands fo vars (List.replicate n (x ++ " = ".toList ++ x)) = some vars := by
  obtain ⟨w, hw⟩ := Option.isSome_iff_exists.mp hx
  have hvalid := table_ok_find_valid (reachable_ok fo vars hr) hw
  have h1 := self_assignment fo vars x w hvalid hw
  refine ⟨h1, ?_⟩
  intro n
  induction n with
  | zero => rfl
  | succ n ih =>
    simp only [List.replicate_succ, run_commands, h1, Option.some_bind]
    exact ih

/-- C19, witness: `a = a` after `a = [10, 20, 30]`. -/
theorem self_assignment_idempotent_witness :
    parse_command zeroFloat table_a ("a".toList ++ " = ".toList ++ "a".toList)
      = some table_a ∧
    ∀ n, run_commands zeroFloat table_a
      (List.replicate n ("a".toList ++ " = ".toList ++ "a".toList)) = some table_a :=
  self_assignment_idempotent zeroFloat table_a "a".toList
    ⟨["a = [10, 20, 30]".toList], by decide⟩ (by decide)

/-! ## Evaluations at failing inputs -/

/-- C15, at the failing inputs: with `a = [10, 20, 30]`, `print(a)` writes the
    list but `print( a )` reports that variable ` a ` is not found; and
    `append(a, 4)` appends but `append(a , 4)` leaves the table as it is. -/
theorem print_argument_not_trimmed :
    handle_print zeroFloat table_a "print(a)".toList = "[10, 20, 30]\n".toList ∧
    handle_print zeroFloat table_a "print( a )".toList
      = "Error: Variable ' a ' not found.\n".toList ∧
    handle_append zeroFloat table_a "append(a, 4)".toList
      = some [{ name := "a".toList,
                value := LIST [LONG_INT 10, LONG_INT 20, LONG_INT 30, LONG_INT 4] }] ∧
    handle_append zeroFloat table_a "append( a, 4)".toList
      = some [{ name := "a".toList,
                value := LIST [LONG_INT 10, LONG_INT 20, LONG_INT 30, LONG_INT 4] }] ∧
    handle_append zeroFloat table_a "append(a , 4)".toList = some table_a := by
  decide

/-- C16, at the failing input: a literal of 51 characters between the quotes
    resolves to a text of 51 characters, while `parse_string_literal`, which
    nothing calls, would keep 50. -/
theorem text_literal_not_truncated :
    parse_operand zeroFloat []
        ([Char.ofNat 34] ++ List.replicate 51 'a' ++ [Char.ofNat 34])
      = some (STRING (List.replicate 51 'a')) ∧
    (List.replicate 51 'a').length = 51 ∧
    parse_string_literal ([Char.ofNat 34] ++ List.replicate 51 'a' ++ [Char.ofNat 34])
      = some (List.replicate 50 'a') := by
  decide

/-- C18, at the failing input: `[1, foo]` with `foo` undefined evaluates to a
    list whose second element is `NONE`, `x = [1, foo]` stores it, while
    `append(a, foo)` is refused. -/
theorem list_literal_keeps_none :
    evaluate_expression zeroFloat [] "[1, foo]".toList = some (LIST [LONG_INT 1, NONE]) ∧
    parse_command zeroFloat [] "x = [1, foo]".toList
      = some [{ name := "x".toList, value := LIST [LONG_INT 1, NONE] }] ∧
    handle_print zeroFloat [{ name := "x".toList, value := LIST [LONG_INT 1, NONE] }]
      "print(x)".toList = "[1, None]\n".toList ∧
    parse_command zeroFloat table_a "append(a, foo)".toList = some table_a := by
  decide

/-! ## One operator -/

theorem find_first_at {p : Char → Bool} (s : List Char) (k : Nat) (c : Char)
    (hk : s.get? k = some c) (hc : p c = true) (hfirst : ∀ x ∈ s.take k, p x = false) :
    find_first p s = some k := by
  obtain ⟨hlt, hget⟩ := List.get?_eq_some.mp hk
  have hsplit : s = s.take k ++ c :: s.drop (k + 1) := by
    rw [← hget]
    exact (List.take_append_drop k s).symm.trans
      (congrArg (s.take k ++ ·) (List.drop_eq_getElem_cons hlt))
  have hlen : (s.take k).length = k := by
    rw [List.length_take]; omega
  have := find_first_append (s.take k) c (s.drop (k + 1)) hfirst hc
  rw [← hsplit, hlen] at this
  exact this

/-- The shared unfolding of `evaluate_expression` on a trimmed string. -/
theorem evaluate_expression_cases (fo : FloatOps) (vars : List Variable) (s : List Char)
    (hs : trimmed s = s) (hne : s ≠ []) :
    (∀ k op, s.get? k = some op → op ∈ operator_chars →
      (∀ c ∈ s.take k, c ∉ operator_chars) →
      evaluate_expression fo vars s =
        (parse_operand fo vars (s.take k)).bind (fun v1 =>
          (parse_operand fo vars (s.drop (k + 1))).bind (fun v2 =>
            if v1 = NONE ∨ v2 = NONE then some NONE
            else some (evaluate_arithmetic fo v1 op v2)))) ∧
    ((∀ c ∈ s, c ∉ operator_chars) →
      evaluate_expression fo vars s = parse_operand fo vars s) := by
  have hlen : s.length ≠ 0 := fun e => hne (List.length_eq_zero.mp e)
  unfold trimmed at hs
  constructor
  · intro k op hk hop hfirst
    have hfind : strpbrk s ['+', '-', '*', '/'] = some k := by
      unfold strpbrk
      apply find_first_at s k op hk
      · simpa [operator_chars] using hop
      · intro x hx
        have := hfirst x hx
        simpa [operator_chars] using this
    rw [evaluate_expression_unfold]
    unfold evaluate_expression_body
    simp only [hs, hlen, if_false, hfind, hk, type_none_iff]
  · intro hnone
    have hfind : strpbrk s ['+', '-', '*', '/'] = none := by
      unfold strpbrk
      apply find_first_none
      intro x hx
      have := hnone x hx
      simpa [operator_chars] using this
    rw [evaluate_expression_unfold]
    unfold evaluate_expression_body
    simp only [hs, hlen, if_false, hfind]

theorem decimal_value_toDigits (m : Nat) : decimal_value (Nat.toDigits 10 m) = m := by
  unfold decimal_value
  rw [← digits_value_eq_foldl _ 0 (toDigits_all_digits m)]
  unfold Nat.toDigits
  rw [digits_value_toDigitsCore (m + 1) m [] (by omega)]
  rfl

theorem toDigits_ne_nil (m : Nat) : Nat.toDigits 10 m ≠ [] :=
  toDigitsCore_ne_nil (m + 1) m [] (Or.inl (by omega))

theorem print_nat (fo : FloatOps) (v : Int) (h : 0 ≤ v) :
    print_element fo (LONG_INT v) = Nat.toDigits 10 v.toNat := by
  have : ¬ v < 0 := by omega
  simp [print_element, fmt_lld, this]

/-- The characters that the text of a list of naturals is made of. -/
theorem nat_list_char_not_operator {c : Char}
    (h : isdigit c = true ∨ c = '[' ∨ c = ']' ∨ c = ',' ∨ c = ' ') : c ∉ operator_chars := by
  rcases h with h | rfl | rfl | rfl | rfl
  · have := digit_char_bounds h
    simp only [operator_chars, List.mem_cons, List.mem_singleton, List.not_mem_nil, or_false,
      not_or]
    refine ⟨?_, ?_, ?_, ?_⟩ <;> (rintro rfl; revert this; decide)
  all_goals decide

mutual
theorem print_element_chars (fo : FloatOps) :
    ∀ v : Element, nat_lists v = true →
      ∀ c ∈ print_element fo v, (isdigit c = true ∨ c = '[' ∨ c = ']' ∨ c = ',' ∨ c = ' ')
  | LONG_INT v, h => by
    simp only [nat_lists, Bool.and_eq_true, decide_eq_true_eq] at h
    rw [print_nat fo v h.1]
    intro c hc
    exact Or.inl (toDigits_all_digits _ c hc)
  | DOUBLE _, h => by simp [nat_lists] at h
  | CHAR _, h => by simp [nat_lists] at h
  | STRING _, h => by simp [nat_lists] at h
  | NONE, h => by simp [nat_lists] at h
  | LIST l, h => by
    simp only [nat_lists] at h
    intro c hc
    simp only [print_element, List.mem_append, List.mem_singleton] at hc
    rcases hc with (rfl | hc) | rfl
    · exact Or.inr (Or.inl rfl)
    · exact print_nodes_chars fo l h c hc
    · exact Or.inr (Or.inr (Or.inl rfl))
theorem print_nodes_chars (fo : FloatOps) :
    ∀ l : List Element, nat_lists_nodes l = true →
      ∀ c ∈ print_nodes fo l, (isdigit c = true ∨ c = '[' ∨ c = ']' ∨ c = ',' ∨ c = ' ')
  | [], _ => by simp [print_nodes]
  | x :: t, h => by
    simp only [nat_lists_nodes, Bool.and_eq_true] at h
    intro c hc
    simp only [print_nodes, List.mem_append] at hc
    rcases hc with (hc | hc) | hc
    · exact print_element_chars fo x h.1 c hc
    · split at hc
      · simp at hc
      · have : c = ',' ∨ c = ' ' := by simpa using hc
        rcases this with rfl | rfl
        · exact Or.inr (Or.inr (Or.inr (Or.inl rfl)))
        · exact Or.inr (Or.inr (Or.inr (Or.inr rfl)))
    · exact print_nodes_chars fo t h.2 c hc
end

/-- The text of a list of naturals starts with a digit or `[` and ends with a
    digit or `]`: trimming leaves it, also after a blank in front. -/
theorem print_element_trim (fo : FloatOps) (v : Element) (h : nat_lists v = true)
    (ws : List Char) (hws : ∀ x ∈ ws, isspace x = true) :
    print_element fo v ≠ [] ∧ chop_space (skip_space (ws ++ print_element fo v))
      = print_element fo v := by
  cases v with
  | LONG_INT n =>
    simp only [nat_lists, Bool.and_eq_true, decide_eq_true_eq] at h
    rw [print_nat fo n h.1]
    have hall := toDigits_all_digits n.toNat
    refine ⟨toDigits_ne_nil _, ?_⟩
    cases hd : Nat.toDigits 10 n.toNat with
    | nil => exact absurd hd (toDigits_ne_nil _)
    | cons c t =>
      rw [hd] at hall
      have := trim_pad ws [] c t hws (by simp)
        (digit_not_space (hall c (List.mem_cons_self _ _)))
        (fun d hl => digit_not_space (hall d (List.mem_of_mem_getLast? hl)))
      simpa using this
  | LIST l =>
    have hform : print_element fo (LIST l) = '[' :: (print_nodes fo l ++ [']']) := by
      simp [print_element]
    rw [hform]
    refine ⟨by simp, ?_⟩
    have hlast : ('[' :: (print_nodes fo l ++ [']'])).getLast? = some ']' := by
      rw [show '[' :: (print_nodes fo l ++ [']']) = ('[' :: print_nodes fo l) ++ [']'] by simp,
        List.getLast?_append]
      rfl
    have := trim_pad ws [] '[' (print_nodes fo l ++ [']']) hws (by simp) (by decide)
      (by
        intro d hd
        rw [hlast] at hd
        rw [← Option.some.inj hd]
        decide)
    simpa using this
  | DOUBLE _ => simp [nat_lists] at h
  | CHAR _ => simp [nat_lists] at h
  | STRING _ => simp [nat_lists] at h
  | NONE => simp [nat_lists] at h

theorem segment_depth_digits :
    ∀ (ds rest : List Char) (d : Int), (∀ c ∈ ds, isdigit c = true) → 0 ≤ d →
      segment_depth (ds ++ rest) d = segment_depth rest d
  | [], _, _, _, _ => rfl
  | c :: t, rest, d, h, hd => by
    have hc := h c (List.mem_cons_self _ _)
    have e1 : c ≠ '[' := digit_ne hc '[' (by decide)
    have e2 : c ≠ ']' := digit_ne hc ']' (by decide)
    have e3 : c ≠ ',' := digit_ne hc ',' (by decide)
    have hn : ¬ d < 0 := by omega
    simp only [List.cons_append, segment_depth, e1, e2, e3, if_false, hn, false_and]
    exact segment_depth_digits t rest d (fun x hx => h x (List.mem_cons_of_mem _ hx)) hd

mutual
theorem print_element_depth (fo : FloatOps) :
    ∀ (v : Element), nat_lists v = true → ∀ (rest : List Char) (d : Int), 0 ≤ d →
      segment_depth (print_element fo v ++ rest) d = segment_depth rest d
  | LONG_INT v, h, rest, d, hd => by
    simp only [nat_lists, Bool.and_eq_true, decide_eq_true_eq] at h
    rw [print_nat fo v h.1]
    exact segment_depth_digits _ rest d (toDigits_all_digits _) hd
  | DOUBLE _, h, _, _, _ => by simp [nat_lists] at h
  | CHAR _, h, _, _, _ => by simp [nat_lists] at h
  | STRING _, h, _, _, _ => by simp [nat_lists] at h
  | NONE, h, _, _, _ => by simp [nat_lists] at h
  | LIST l, h, rest, d, hd => by
    simp only [nat_lists] at h
    have hform : print_element fo (LIST l) ++ rest
        = '[' :: (print_nodes fo l ++ (']' :: rest)) := by
      simp [print_element]
    have h1 : ¬ d + 1 < 0 := by omega
    have h2 : ¬ d + 1 - 1 < 0 := by omega
    rw [hform]
    simp only [segment_depth, if_true, h1, if_false, show ¬ ('[' = ',') by decide, false_and]
    rw [print_nodes_depth fo l h (']' :: rest) (d + 1) (by omega)]
    simp only [segment_depth, show ¬ (']' = '[') by decide, if_false, if_true, h2,
      show ¬ (']' = ',') by decide, false_and]
    congr 1
    omega
theorem print_nodes_depth (fo : FloatOps) :
    ∀ (l : List Element), nat_lists_nodes l = true → ∀ (rest : List Char) (d : Int), 1 ≤ d →
      segment_depth (print_nodes fo l ++ rest) d = segment_depth rest d
  | [], _, _, _, _ => by simp [print_nodes]
  | x :: t, h, rest, d, hd => by
    simp only [nat_lists_nodes, Bool.and_eq_true] at h
    have hx := print_element_depth fo x h.1
    have ht := print_nodes_depth fo t h.2 rest d hd
    simp only [print_nodes, List.append_assoc]
    rw [hx _ d (by omega)]
    cases t with
    | nil => simp [print_nodes]
    | cons y t =>
      have hn : ¬ d < 0 := by omega
      have hz : ¬ d = 0 := by omega
      simp only [List.isEmpty_cons, Bool.false_eq_true, if_false, String.toList,
        List.cons_append, List.nil_append, segment_depth, show ¬ (',' = '[') by decide,
        show ¬ (',' = ']') by decide, show ¬ (' ' = '[') by decide,
        show ¬ (' ' = ']') by decide, show ¬ (' ' = ',') by decide, hn, hz, and_false,
        false_and]
      exact ht
end

mutual
theorem evaluate_print_element (fo : FloatOps) (vars : List Variable) (hok : table_ok vars) :
    ∀ v : Element, nat_lists v = true →
      evaluate_expression fo vars (print_element fo v) = some v
  | LONG_INT v, h => by
    have hb := h
    simp only [nat_lists, Bool.and_eq_true, decide_eq_true_eq] at hb
    rw [print_nat fo v hb.1]
    have hval := decimal_value_toDigits v.toNat
    have := (integer_literal_value fo vars (Nat.toDigits 10 v.toNat) hok (toDigits_ne_nil _)
      (toDigits_all_digits _) (by rw [hval]; omega)).1
    rw [this, hval]
    congr 2
    omega
  | DOUBLE _, h => by simp [nat_lists] at h
  | CHAR _, h => by simp [nat_lists] at h
  | STRING _, h => by simp [nat_lists] at h
  | NONE, h => by simp [nat_lists] at h
  | LIST l, h => by
    have htrim := print_element_trim fo (LIST l) h [] (by simp)
    have hchars := print_element_chars fo (LIST l) h
    rw [(evaluate_expression_cases fo vars (print_element fo (LIST l))
      (by simpa [trimmed] using htrim.2) htrim.1).2
      (fun c hc => nat_list_char_not_operator (hchars c hc))]
    have hform : print_element fo (LIST l) = '[' :: print_nodes fo l ++ [']'] := by
      simp [print_element]
    rw [hform, parse_operand_brackets]
    unfold parse_list_literal
    simp only [nat_lists] at h
    cases l with
    | nil => simp [print_nodes, parse_list_loop, list_token, skip_space, chop_space]
    | cons x t =>
      rw [evaluate_print_nodes fo vars hok (x :: t) h (by simp) [] [] (Or.inl rfl)]
      simp
theorem evaluate_print_nodes (fo : FloatOps) (vars : List Variable) (hok : table_ok vars) :
    ∀ l : List Element, nat_lists_nodes l = true → l ≠ [] →
      ∀ (tok : List Char) (acc : List Element), (tok = [] ∨ tok = [' ']) →
        parse_list_loop (evaluate_expression fo vars) (print_nodes fo l) 0 tok acc
          = some (acc ++ l)
  | [], _, hne, _, _, _ => absurd rfl hne
  | x :: t, h, _, tok, acc, htok => by
    simp only [nat_lists_nodes, Bool.and_eq_true] at h
    have hx := evaluate_print_element fo vars hok x h.1
    have hws : ∀ c ∈ tok, isspace c = true := by
      rcases htok with rfl | rfl
      · simp
      · decide
    have htrim := print_element_trim fo x h.1 tok hws
    have hdepth : segment_depth (print_element fo x) 0 = some 0 := by
      have := print_element_depth fo x h.1 [] 0 (by omega)
      simpa [segment_depth] using this
    have htoken : list_token (evaluate_expression fo vars) (tok ++ print_element fo x) acc
        = some (acc ++ [x]) := by
      unfold list_token
      have hlen : (print_element fo x).length > 0 := List.length_pos.mpr htrim.1
      simp only [htrim.2, hlen, if_true, hx, Option.map_some']
    simp only [print_nodes, List.append_assoc]
    rw [parse_list_loop_segment _ _ _ 0 0 tok acc hdepth]
    cases t with
    | nil =>
      simp only [List.isEmpty_nil, if_true, print_nodes, List.append_nil, parse_list_loop]
      exact htoken
    | cons y t =>
      have ih := evaluate_print_nodes fo vars hok (y :: t) h.2 (by simp) [' '] (acc ++ [x])
        (Or.inr rfl)
      simp only [List.isEmpty_cons, Bool.false_eq_true, if_false, String.toList,
        List.cons_append, List.nil_append, parse_list_loop, show ¬ (',' = '[') by decide,
        show ¬ (',' = ']') by decide, show ¬ (' ' = '[') by decide,
        show ¬ (' ' = ']') by decide, show ¬ (' ' = ',') by decide, and_self, if_true,
        false_and, htoken, Option.some_bind]
      simpa using ih
end

/-- C22: in every table reachable by commands, for every element built only
    from non-negative 64-bit Integers and Lists, nested and possibly empty,
    evaluating the text that `print_element` writes for it returns the
    element. -/
theorem print_evaluate_round_trip (fo : FloatOps) (vars : List Variable) (v : Element)
    (hr : reachable fo vars) (hv : nat_lists v = true) :
    evaluate_expression fo vars (print_element fo v) = some v :=
  evaluate_print_element fo vars (reachable_ok fo vars hr) v hv

/-- C22, witness: the element `[1, [20, []], [], 300]` after `a = [10, 20, 30]`. -/
theorem print_evaluate_round_trip_witness :
    print_element zeroFloat
        (LIST [LONG_INT 1, LIST [LONG_INT 20, LIST []], LIST [], LONG_INT 300])
      = "[1, [20, []], [], 300]".toList ∧
    evaluate_expression zeroFloat table_a
        (print_element zeroFloat
          (LIST [LONG_INT 1, LIST [LONG_INT 20, LIST []], LIST [], LONG_INT 300]))
      = some (LIST [LONG_INT 1, LIST [LONG_INT 20, LIST []], LIST [], LONG_INT 300]) :=
  ⟨by decide,
   print_evaluate_round_trip zeroFloat table_a
    (LIST [LONG_INT 1, LIST [LONG_INT 20, LIST []], LIST [], LONG_INT 300])
    ⟨["a = [10, 20, 30]".toList], by decide⟩ (by decide)⟩

end PyInterp
